import Mathlib

/-!
# A shallow embedding of `shell.c`

The C program is a small interactive shell: a read-eval loop (`main`), a
tokenizer (`parse_command`, `parse_commands_with_pipes`), a bounded history
(`add_to_history`, `clear_history`, `handle_history`), the builtins
(`handle_built_in`) and the pipeline executor (`exec_command`,
`exec_commands`).

Conventions of the embedding.

* A C string is the list of its bytes before the terminating NUL (`CStr`).
* The globals `history` and `history_len`, the two output streams, the working
  directory and a log of the system calls made by the orchestrating process
  form the `World` that every function threads through.
* `fork` and `chdir` are answered by an `Env`; `pipe` hands out fresh
  descriptors; `calloc` and `strdup` always succeed (memory is unbounded).
* A dereference the C standard leaves undefined (a NULL, dangling or
  out-of-range pointer) ends the run with `Outcome.fault`.
* `handle_history` re-enters `exec_commands`; the nesting depth of such recalls
  is bounded by a fuel argument, and `Outcome.nofuel` reports its exhaustion.
-/

set_option autoImplicit false

namespace Shell

/-! ## Constants and data (`shell.h`) -/

/-- The bytes of a NUL-terminated C string, terminator excluded. -/
abbrev CStr := List Char

/-- Max number of arguments to a command. -/
def ARG_MAX_COUNT : Nat := 1024

/-- Max number of elements in the history. -/
def HISTORY_MAXITEMS : Nat := 100

/-- Descriptor numbers of the standard streams. -/
def STDIN_FILENO : Int := 0

/-- Descriptor number of standard output. -/
def STDOUT_FILENO : Int := 1

/-- The struct that stores a parsed command.  `argv` lists the non-NULL
pointers stored in `argv[0 .. argc-1]`; every later element of the C array is
NULL (the struct is `calloc`ed).  `name` is NULL (`none`) when no token was
found.  `fds` is `(fds[0], fds[1])`. -/
structure command where
  argc : Nat
  name : Option CStr
  argv : List CStr
  fds : Int × Int
  deriving DecidableEq, Repr

/-- The struct that stores a command pipeline.  A slot of `cmds` that was
never assigned is NULL (`none`). -/
structure commands where
  cmd_count : Nat
  cmds : List (Option command)
  deriving DecidableEq, Repr

/-- One element of the `history` array: a pointer that is NULL, points to a
live `strdup`ed line, or dangles after `free`. -/
inductive Slot where
  | null
  | live (line : CStr)
  | freed
  deriving DecidableEq, Repr

/-- What the orchestrating process did, in order.  `parse` and `recall` mark
calls of `parse_commands_with_pipes` and evaluations of `history[offset]`; the
others are system calls. -/
inductive Event where
  | parse (line : CStr)
  | recall (offset : Int)
  | fork (name : CStr) (argv : List CStr) (fds : Int × Int) (piped : Bool) (pid : Int)
  | wait
  | pipe (rd wr : Int)
  | close (fd : Int)
  | chdir (path : Option CStr) (ret : Int)
  deriving DecidableEq, Repr

/-- The state of the process: the history globals, what was written to the two
streams, the working directory, the log of events, the number of `fork` calls
made so far and the next unused descriptor number. -/
structure World where
  history : Option (List Slot)
  history_len : Nat
  stdout : List Char
  stderr : List Char
  cwd : CStr
  trace : List Event
  forks : Nat
  next_fd : Nat
  deriving DecidableEq, Repr

/-- The operating system's answers: `fork_pid k` is the positive pid returned
to the parent by the `k`-th `fork` (`none` when it fails), and `chdir cwd path`
is the new working directory (`none` when `chdir` fails). -/
structure Env where
  fork_pid : Nat → Option Nat
  chdir : CStr → CStr → Option CStr

/-- The result of running a function of the program. -/
inductive Outcome where
  | ret (value : Int) (w : World)
  | fault (w : World)
  | nofuel
  deriving DecidableEq, Repr

/-- The process right after start-up: `history` is NULL, nothing is stored. -/
def World.init : World :=
  { history := none, history_len := 0, stdout := [], stderr := [], cwd := [],
    trace := [], forks := 0, next_fd := 3 }

/-- Append an event to the log. -/
def World.log (w : World) (e : Event) : World :=
  { w with trace := w.trace ++ [e] }

/-- `fprintf(stderr, msg)`. -/
def World.eprint (w : World) (msg : CStr) : World :=
  { w with stderr := w.stderr ++ msg }

/-- `printf`/`fputs` to standard output. -/
def World.print (w : World) (msg : CStr) : World :=
  { w with stdout := w.stdout ++ msg }

/-! ## The C library -/

/-- `isspace` in the C locale: space, `\t`, `\n`, `\v`, `\f`, `\r`. -/
def isspace (c : Char) : Bool :=
  c == ' ' || c == Char.ofNat 9 || c == Char.ofNat 10 || c == Char.ofNat 11 ||
    c == Char.ofNat 12 || c == Char.ofNat 13

/-- One call of `strtok`/`strtok_r` with the single delimiter `d` on the rest
`s` of the buffer: skip leading delimiters; if nothing is left return NULL;
otherwise return the token up to the next delimiter together with the buffer
that follows that delimiter. -/
def strtok (d : Char) (s : CStr) : Option (CStr × CStr) :=
  let s1 := s.dropWhile (fun c => c == d)
  if s1 = [] then none
  else some (s1.takeWhile (fun c => c != d), (s1.dropWhile (fun c => c != d)).drop 1)

/-- The decimal digits at the head of a string, as a number, with their
count. -/
def digits_value : CStr → Nat → Nat → Nat × Nat
  | [], acc, n => (acc, n)
  | c :: cs, acc, n =>
    if c.isDigit then digits_value cs (acc * 10 + (c.toNat - 48)) (n + 1) else (acc, n)

/-- `LONG_MAX` of a 64-bit `long`. -/
def LONG_MAX : Int := 2 ^ 63 - 1

/-- `LONG_MIN` of a 64-bit `long`. -/
def LONG_MIN : Int := -(2 ^ 63)

/-- `strtol(s, &end, 10)`: skip white space, read an optional sign and the
decimal digits, clamp to the range of `long`.  `none` stands for `end == s`
(no digits, nothing converted). -/
def strtol (s : CStr) : Option Int :=
  let s1 := s.dropWhile isspace
  let (neg, s2) :=
    match s1 with
    | c :: cs => if c == '-' then (true, cs) else if c == '+' then (false, cs) else (false, s1)
    | [] => (false, s1)
  let (v, n) := digits_value s2 0 0
  if n = 0 then none
  else
    let x : Int := if neg then -(v : Int) else (v : Int)
    some (if x > LONG_MAX then LONG_MAX else if x < LONG_MIN then LONG_MIN else x)

/-- The conversion `(int) loffset` of a `long` to a 32-bit `int`. -/
def long_to_int (x : Int) : Int :=
  (x + 2 ^ 31) % 2 ^ 32 - 2 ^ 31

/-! ## `is_history_command`, `is_blank` -/

/-- Returns whether a command is a history command: the input is at least as
long as `history` and agrees with it on its first seven bytes. -/
def is_history_command (input : CStr) : Bool :=
  let key : CStr := "history".toList
  if input.length < key.length then false
  else (List.range key.length).all (fun i => input.get? i == key.get? i)

/-- Whether every byte of the input is white space. -/
def is_blank (input : CStr) : Bool :=
  input.all isspace

/-! ## The tokenizer -/

/-- The `while (token != NULL && tokenCount < ARG_MAX_COUNT)` loop of
`parse_command`; the first argument is the room left in `argv`. -/
def parse_command_loop : Nat → Option (CStr × CStr) → List CStr
  | 0, _ => []
  | _ + 1, none => []
  | room + 1, some (token, rest) => token :: parse_command_loop room (strtok ' ' rest)

/-- Parses a single command into a command struct. -/
def parse_command (input : CStr) : command :=
  let argv := parse_command_loop ARG_MAX_COUNT (strtok ' ' input)
  { argc := argv.length, name := argv.head?, argv := argv, fds := (0, 0) }

/-- The `while (token != NULL && i < commandCount)` loop of
`parse_commands_with_pipes`; the first argument is `commandCount - i`. -/
def parse_pipes_loop : Nat → Option (CStr × CStr) → List command
  | 0, _ => []
  | _ + 1, none => []
  | room + 1, some (token, rest) => parse_command token :: parse_pipes_loop room (strtok '|' rest)

/-- Parses a command with pipes into a commands structure: `cmd_count` is the
number of `|` bytes plus one, and the slots that the token loop did not reach
stay NULL. -/
def parse_commands_with_pipes (input : CStr) : commands :=
  let commandCount := input.count '|' + 1
  let parsed := parse_pipes_loop commandCount (strtok '|' input)
  { cmd_count := commandCount,
    cmds := parsed.map some ++ List.replicate (commandCount - parsed.length) none }

/-- The C string that starts at `input` once `parse_commands_with_pipes` has
run on it: `strtok_r` overwrote the first `|` that follows the first stage
with NUL, and `strtok` overwrote the first space that follows the first
argument of that stage. -/
def buffer_after_parse (input : CStr) : CStr :=
  let lead := input.takeWhile (fun c => c == '|')
  let stage := (input.dropWhile (fun c => c == '|')).takeWhile (fun c => c != '|')
  lead ++ stage.takeWhile (fun c => c == ' ') ++
    (stage.dropWhile (fun c => c == ' ')).takeWhile (fun c => c != ' ')

/-! ## The history store -/

/-- Clears the history: frees `history[0 .. history_len-1]` and resets
`history_len`; the array itself and its other slots are left as they are. -/
def clear_history (w : World) : Int × World :=
  (0, { w with
        history := w.history.map (fun arr =>
          List.replicate (min w.history_len arr.length) Slot.freed ++ arr.drop w.history_len),
        history_len := 0 })

/-- The array after `memmove(history, history+1, sizeof(char *) *
(HISTORY_MAXITEMS - 1))`: slots `0 .. HISTORY_MAXITEMS-2` receive the
pointers of slots `1 .. HISTORY_MAXITEMS-1`, the other slots keep theirs. -/
def memmove_history (arr : List Slot) : List Slot :=
  (arr.drop 1).take (HISTORY_MAXITEMS - 1) ++ arr.drop (HISTORY_MAXITEMS - 1)

/-- Adds the user's input to the history.  The array is allocated on the first
call; when `history_len` has reached `HISTORY_MAXITEMS` the oldest line is
freed and the others move down one slot before the copy of the input is
stored at `history[history_len++]`.  Returns 1. -/
def add_to_history (w : World) (input : CStr) : Int × World :=
  let arr :=
    match w.history with
    | none => List.replicate HISTORY_MAXITEMS Slot.null
    | some a => a
  let line := input
  let moved : List Slot × Nat :=
    if w.history_len = HISTORY_MAXITEMS then (memmove_history arr, w.history_len - 1)
    else (arr, w.history_len)
  (1, { w with history := some (moved.1.set moved.2 (Slot.live line)),
               history_len := moved.2 + 1 })

/-- The value of `history[offset]` when it is a pointer to a live line. -/
def history_at (w : World) (offset : Int) : Option CStr :=
  match w.history with
  | none => none
  | some arr =>
    if offset < 0 then none
    else
      match arr.get? offset.toNat with
      | some (Slot.live line) => some line
      | _ => none

/-- The line a slot points to, when it points to a live one. -/
def Slot.line : Slot → Option CStr
  | Slot.live line => some line
  | _ => none

/-- The lines that a run of slots points to, when all of them are live. -/
def lines_of : List Slot → Option (List CStr)
  | [] => some []
  | s :: ss => s.line.bind (fun line => (lines_of ss).map (fun ls => line :: ls))

/-- The stored lines `history[0 .. history_len-1]`, oldest first, when each of
these slots points to a live line. -/
def entries (w : World) : Option (List CStr) :=
  match w.history with
  | none => if w.history_len = 0 then some [] else none
  | some arr => if w.history_len ≤ arr.length then lines_of (arr.take w.history_len) else none

/-- Whether `history`, once allocated, has its `HISTORY_MAXITEMS` slots. -/
def array_ok (w : World) : Bool :=
  match w.history with
  | none => true
  | some arr => arr.length == HISTORY_MAXITEMS

/-- A call of the history store's interface. -/
inductive HistoryOp where
  | add (line : CStr)
  | clear
  deriving DecidableEq, Repr

/-- Run a sequence of `add_to_history` and `clear_history` calls. -/
def run_history : List HistoryOp → World → World
  | [], w => w
  | HistoryOp.add line :: ops, w => run_history ops (add_to_history w line).2
  | HistoryOp.clear :: ops, w => run_history ops (clear_history w).2

/-! ## Builtins and the executor -/

/-- Returns whether a command is a built-in, one of `exit`, `cd`, `history`.
`strcmp` on a NULL name is undefined (`none`). -/
def check_built_in (cmd : command) : Option Bool :=
  match cmd.name with
  | none => none
  | some name =>
    some (name == "exit".toList || name == "cd".toList || name == "history".toList)

/-- The `for` loop of `handle_history` that prints `history[i]` for
`i < history_len`; the first argument is `history_len - i`. -/
def print_history : Nat → Nat → World → Outcome
  | 0, _, w => Outcome.ret 1 w
  | left + 1, i, w =>
    match history_at w (i : Int) with
    | none => Outcome.fault w
    | some line =>
      print_history left (i + 1)
        (w.print (Nat.toDigits 10 i ++ [' '] ++ line ++ [Char.ofNat 10]))

/-- Responsible for handling the history shell builtin.  `exec` is
`exec_commands`; its return value is dropped.  `_cmds` is only saved in
`parent_cmds` for the benefit of a failing child. -/
def handle_history (exec : World → commands → Outcome) (w : World)
    (_cmds : commands) (cmd : command) : Outcome :=
  if cmd.argc = 1 then
    print_history w.history_len 0 w
  else if cmd.argc > 1 then
    match cmd.argv.get? 1 with
    | none => Outcome.fault w
    | some arg =>
      if arg == "-c".toList then
        Outcome.ret 0 (clear_history w).2
      else
        match strtol arg with
        | none => Outcome.ret 1 (w.eprint "error: cannot convert to number\n".toList)
        | some loffset =>
          let offset := long_to_int loffset
          if offset > (w.history_len : Int) then
            Outcome.ret 1 (w.eprint "error: offset > number of items\n".toList)
          else
            let w1 := w.log (Event.recall offset)
            match history_at w offset with
            | none => Outcome.fault w1
            | some line =>
              let new_commands := parse_commands_with_pipes line
              match exec (w1.log (Event.parse line)) new_commands with
              | Outcome.ret _ w2 => Outcome.ret 0 w2
              | Outcome.fault w2 => Outcome.fault w2
              | Outcome.nofuel => Outcome.nofuel
  else Outcome.ret 0 w

/-- Handles the shell built-in commands.  Returns -1 to indicate that the
program should exit.  `cd` passes `argv[1]` to `chdir` as it is; on a NULL
path `chdir` fails. -/
def handle_built_in (env : Env) (exec : World → commands → Outcome) (w : World)
    (cmds : commands) (cmd : command) : Outcome :=
  match cmd.name with
  | none => Outcome.fault w
  | some name =>
    if name == "exit".toList then Outcome.ret (-1) w
    else if name == "cd".toList then
      match (cmd.argv.get? 1).bind (env.chdir w.cwd) with
      | none =>
        Outcome.ret 1
          ((w.log (Event.chdir (cmd.argv.get? 1) (-1))).eprint
            "error: unable to change dir\n".toList)
      | some dir => Outcome.ret 0 { w.log (Event.chdir (cmd.argv.get? 1) 0) with cwd := dir }
    else if name == "history".toList then handle_history exec w cmds cmd
    else Outcome.ret 0 w

/-- Executes a command by forking off a child and calling exec; a built-in is
handled in the calling process instead.  `piped` tells whether `pipes` is
non-NULL.  Only the parent's side of `fork` is followed: it returns the
child's pid, or 0 after a failed `fork`. -/
def exec_command (env : Env) (exec : World → commands → Outcome) (w : World)
    (cmds : commands) (cmd : command) (piped : Bool) : Outcome :=
  match check_built_in cmd with
  | none => Outcome.fault w
  | some true => handle_built_in env exec w cmds cmd
  | some false =>
    match env.fork_pid w.forks with
    | none =>
      Outcome.ret 0
        (({ w with forks := w.forks + 1 }.log
          (Event.fork (cmd.name.getD []) cmd.argv cmd.fds piped (-1))).eprint
          "error: fork error\n".toList)
    | some p =>
      Outcome.ret ((p : Int) + 1)
        ({ w with forks := w.forks + 1 }.log
          (Event.fork (cmd.name.getD []) cmd.argv cmd.fds piped ((p : Int) + 1)))

/-- Closes all the pipes. -/
def close_pipes (w : World) : List (Int × Int) → World
  | [] => w
  | (rd, wr) :: pipes => close_pipes ((w.log (Event.close rd)).log (Event.close wr)) pipes

/-- The loop of `exec_commands` that looks for a built-in among
`cmds[i .. cmd_count-1]`; the first argument is `cmd_count - i`.  `none` is a
NULL dereference. -/
def any_built_in : Nat → Nat → commands → Option Bool
  | 0, _, _ => some false
  | left + 1, i, cmds =>
    match cmds.cmds.get? i with
    | some (some cmd) =>
      match check_built_in cmd with
      | none => none
      | some true => some true
      | some false => any_built_in left (i + 1) cmds
    | _ => none

/-- The assignment `cmds->cmds[i]->fds[STDIN_FILENO] = fd`. -/
def set_stdin (cmds : List (Option command)) (i : Nat) (fd : Int) : List (Option command) :=
  cmds.modify (Option.map (fun c => { c with fds := (fd, c.fds.2) })) i

/-- The assignment `cmds->cmds[i]->fds[STDOUT_FILENO] = fd`. -/
def set_stdout (cmds : List (Option command)) (i : Nat) (fd : Int) : List (Option command) :=
  cmds.modify (Option.map (fun c => { c with fds := (c.fds.1, fd) })) i

/-- The loop of `exec_commands` that creates `pipes[i-1]` and sets the
descriptors of stages `i-1` and `i`, for `i` up to `cmd_count - 1`; the first
argument is `cmd_count - i`.  Returns the pipes created, in order. -/
def wire_pipes : Nat → Nat → World → List (Option command) →
    World × List (Option command) × List (Int × Int)
  | 0, _, w, cmds => (w, cmds, [])
  | left + 1, i, w, cmds =>
    let rd : Int := w.next_fd
    let wr : Int := w.next_fd + 1
    let w1 := { w with next_fd := w.next_fd + 2 }.log (Event.pipe rd wr)
    let cmds1 := set_stdin (set_stdout cmds (i - 1) wr) i rd
    let r := wire_pipes left (i + 1) w1 cmds1
    (r.1, r.2.1, (rd, wr) :: r.2.2)

/-- The loop of `exec_commands` that runs `exec_command` on
`cmds[i .. cmd_count-1]`, keeping the last return value in `exec_ret`; the
first argument is `cmd_count - i`. -/
def exec_all (env : Env) (exec : World → commands → Outcome) :
    Nat → Nat → World → commands → Int → Outcome
  | 0, _, w, _, exec_ret => Outcome.ret exec_ret w
  | left + 1, i, w, cmds, _ =>
    match cmds.cmds.get? i with
    | some (some cmd) =>
      match exec_command env exec w cmds cmd true with
      | Outcome.ret v w1 => exec_all env exec left (i + 1) w1 cmds v
      | o => o
    | _ => Outcome.fault w

/-- The loop that calls `wait(NULL)` once per command. -/
def wait_all : Nat → World → World
  | 0, w => w
  | left + 1, w => wait_all left (w.log Event.wait)

/-- The body of `exec_commands`, with `exec` standing for `exec_commands`
itself where `handle_history` re-enters it.  A `cmd_count` of 0, which the
tokenizer never produces, would index `cmds[-1]`. -/
def exec_commands_body (env : Env) (exec : World → commands → Outcome) (w : World)
    (cmds : commands) : Outcome :=
  if cmds.cmd_count = 1 then
    match cmds.cmds.get? 0 with
    | some (some cmd0) =>
      let cmd0 := { cmd0 with fds := (STDIN_FILENO, STDOUT_FILENO) }
      let cmds := { cmds with cmds := cmds.cmds.set 0 (some cmd0) }
      match exec_command env exec w cmds cmd0 false with
      | Outcome.ret exec_ret w1 => Outcome.ret exec_ret (w1.log Event.wait)
      | o => o
    | _ => Outcome.fault w
  else if cmds.cmd_count = 0 then Outcome.fault w
  else
    let pipe_count := cmds.cmd_count - 1
    match any_built_in cmds.cmd_count 0 cmds with
    | none => Outcome.fault w
    | some true => Outcome.ret 0 (w.eprint "error: no builtins in pipe\n".toList)
    | some false =>
      let wired := wire_pipes pipe_count 1 w (set_stdin cmds.cmds 0 STDIN_FILENO)
      let cmds1 := { cmds with cmds := set_stdout wired.2.1 pipe_count STDOUT_FILENO }
      match exec_all env exec cmds.cmd_count 0 wired.1 cmds1 0 with
      | Outcome.ret exec_ret w1 =>
        Outcome.ret exec_ret (wait_all cmds.cmd_count (close_pipes w1 wired.2.2))
      | o => o

/-- Executes a set of commands that are piped together.  The first argument
bounds how deeply `history N` recalls may nest. -/
def exec_commands : Nat → Env → World → commands → Outcome
  | 0, env, w, cmds => exec_commands_body env (fun _ _ => Outcome.nofuel) w cmds
  | fuel + 1, env, w, cmds => exec_commands_body env (exec_commands fuel env) w cmds

/-! ## The read-eval loop -/

/-- The local state of `main`: the process state and the variable `exec_ret`,
which holds no value until the first pipeline has run. -/
structure MainState where
  w : World
  exec_ret : Option Int
  deriving DecidableEq, Repr

/-- The result of iterations of the loop of `main`. -/
inductive MainOutcome where
  | next (s : MainState)
  | fault (w : World)
  | nofuel
  deriving DecidableEq, Repr

/-- The guard `strlen(input) > 0 && !is_blank(input) && input[0] != '|'`. -/
def accepted (input : CStr) : Bool :=
  input.length > 0 && !is_blank input && input.get? 0 != some '|'

/-- The recording step of `main`: `add_to_history(linecopy)` is called when
`commands->cmd_count > 1 || !is_history_command(input)`, where `linecopy` is
the copy of the line taken before tokenizing and `input` is the buffer the
tokenizer has written to. -/
def record (w : World) (linecopy : CStr) (commands : commands) : World :=
  if commands.cmd_count > 1 || !is_history_command (buffer_after_parse linecopy) then
    (add_to_history w linecopy).2
  else w

/-- One iteration of the loop of `main` on the line `input`, up to and
including `free(input)`. -/
def main_iter (fuel : Nat) (env : Env) (s : MainState) (input : CStr) : MainOutcome :=
  let w := s.w.print "$".toList
  if accepted input then
    let linecopy := input
    let commands := parse_commands_with_pipes input
    let w1 := record (w.log (Event.parse input)) linecopy commands
    match exec_commands fuel env w1 commands with
    | Outcome.ret exec_ret w2 => MainOutcome.next { w := w2, exec_ret := some exec_ret }
    | Outcome.fault w2 => MainOutcome.fault w2
    | Outcome.nofuel => MainOutcome.nofuel
  else MainOutcome.next { s with w := w }

/-- The loop of `main` on the lines that `read_input` returns before the end
of input.  The result is the state in which `cleanup_and_exit` is called.
Reading `exec_ret` before its first assignment is a fault. -/
def main_loop (fuel : Nat) (env : Env) : List CStr → MainState → MainOutcome
  | [], s => MainOutcome.next { s with w := s.w.print "$".toList }
  | input :: rest, s =>
    match main_iter fuel env s input with
    | MainOutcome.next s1 =>
      match s1.exec_ret with
      | none => MainOutcome.fault s1.w
      | some v => if v = -1 then MainOutcome.next s1 else main_loop fuel env rest s1
    | o => o

/-! ## Observations on outcomes, and the listing format -/

/-- The value a run returned, if it returned. -/
def Outcome.value : Outcome → Option Int
  | Outcome.ret v _ => some v
  | _ => none

/-- The same run with its return value replaced by `v`. -/
def Outcome.with_value (v : Int) : Outcome → Outcome
  | Outcome.ret _ w => Outcome.ret v w
  | o => o

/-- The line `"<index> <text>"` followed by a newline, as the format
`"%d %s\n"` renders it. -/
def history_line (i : Nat) (e : CStr) : CStr :=
  Nat.toDigits 10 i ++ [' '] ++ e ++ [Char.ofNat 10]

/-- The lines to be listed for the stored lines `es`, oldest first, each with
its index. -/
def history_listing (es : List CStr) : List CStr :=
  (es.enumFrom 0).map (fun p => history_line p.1 p.2)

/-! ## The tokenizer as the specification words it -/

/-- In the words of the specification: the maximal non-empty substrings of
`s` that do not contain the byte `d`, from left to right; that is, the pieces
between the occurrences of `d`, the empty ones left out. -/
def spec_fields (d : Char) (s : CStr) : List CStr :=
  (s.splitOn d).filter (fun t => t != [])

/-- In the words of the specification: the command of a stage substring has
as arguments the first `ARG_MAX_COUNT` of the space-free substrings of the
stage, `argc` is their number and the name is argument 0. -/
def spec_command (stage : CStr) : command :=
  { argc := ((spec_fields ' ' stage).take ARG_MAX_COUNT).length,
    name := ((spec_fields ' ' stage).take ARG_MAX_COUNT).head?,
    argv := (spec_fields ' ' stage).take ARG_MAX_COUNT,
    fds := (0, 0) }

/-! ## Example states -/

/-- An operating system in which the `k`-th `fork` returns pid `42 + k` and
every `chdir` succeeds. -/
def env_ok : Env :=
  { fork_pid := fun k => some (41 + k), chdir := fun _ path => some path }

/-- The local state of `main` on entry to its loop. -/
def MainState.init : MainState := { w := World.init, exec_ret := none }

/-- The store after `line` was added to the empty store. -/
def one_store (line : CStr) : World := (add_to_history World.init line).2

/-- The store after the hundred lines `0`, `1`, ..., `99` were added. -/
def full_store : World :=
  run_history ((List.range 100).map (fun i => HistoryOp.add (Nat.toDigits 10 i))) World.init

/-- The command that the line ` history 0` (with its leading space) tokenizes
to. -/
def self_recall : command :=
  { argc := 2, name := some "history".toList, argv := ["history".toList, "0".toList],
    fds := (0, 0) }

/-! ## Observations on pipelines -/

/-- The name of stage `i` of a pipeline, when `cmds[i]` is a parsed command
that has one. -/
def stage_name (cmds : commands) (i : Nat) : Option CStr :=
  match cmds.cmds.get? i with
  | some (some cmd) => cmd.name
  | _ => none

/-- The descriptor pairs of `n` pipes created one after the other when `nf` is
the next unused descriptor: each `pipe` call returns a fresh read end and a
fresh write end. -/
def fresh_pipes : Nat → Nat → List (Int × Int)
  | _, 0 => []
  | nf, n + 1 => ((nf : Int), (nf : Int) + 1) :: fresh_pipes (nf + 2) n

/-- The `pipe` events of a list of pipes. -/
def pipe_events (pipes : List (Int × Int)) : List Event :=
  pipes.map (fun p => Event.pipe p.1 p.2)

/-- The `close` events of `close_pipes` on a list of pipes. -/
def close_events : List (Int × Int) → List Event
  | [] => []
  | (rd, wr) :: pipes => Event.close rd :: Event.close wr :: close_events pipes

/-- The value that the `k`-th `fork` returns to the parent. -/
def fork_value (env : Env) (k : Nat) : Int :=
  match env.fork_pid k with
  | none => -1
  | some p => (p : Int) + 1

/-- The `fork` events of the stages `cmds[i .. i+left-1]` of a pipeline, the
first of them being the `k`-th `fork` of the process. -/
def spawn_events (env : Env) (cmds : commands) : Nat → Nat → Nat → List Event
  | 0, _, _ => []
  | left + 1, i, k =>
    match cmds.cmds.get? i with
    | some (some cmd) =>
      Event.fork (cmd.name.getD []) cmd.argv cmd.fds true (fork_value env k) ::
        spawn_events env cmds left (i + 1) (k + 1)
    | _ => []

/-- The state, the commands and the pipes of `exec_commands` on a pipeline of
several stages at the point where all descriptors are set and no command has
been executed yet. -/
def wiring (w : World) (cmds : commands) : World × commands × List (Int × Int) :=
  let pipe_count := cmds.cmd_count - 1
  let wired := wire_pipes pipe_count 1 w (set_stdin cmds.cmds 0 STDIN_FILENO)
  (wired.1, { cmds with cmds := set_stdout wired.2.1 pipe_count STDOUT_FILENO }, wired.2.2)

/-- Whether stage `j` of a pipeline is a parsed command that has a name which
is not the name of a built-in. -/
def external_stage (cmds : commands) (j : Nat) : Bool :=
  match cmds.cmds.get? j with
  | some (some cmd) => check_built_in cmd == some false
  | _ => false

/-- What `handle_history` re-enters when `exec_commands` runs with the given
bound on the nesting of recalls. -/
def recall_exec (fuel : Nat) (env : Env) : World → commands → Outcome :=
  match fuel with
  | 0 => fun _ _ => Outcome.nofuel
  | fuel + 1 => exec_commands fuel env

set_option maxRecDepth 100000

/-! ## The history store: bound and FIFO order -/

theorem add_to_history_len_le (w : World) (line : CStr)
    (h : w.history_len ≤ HISTORY_MAXITEMS) :
    (add_to_history w line).2.history_len ≤ HISTORY_MAXITEMS := by
  unfold add_to_history
  by_cases hfull : w.history_len = HISTORY_MAXITEMS
  · simp [hfull, HISTORY_MAXITEMS]
  · simp only [hfull, if_false]
    omega

theorem clear_history_len (w : World) : (clear_history w).2.history_len = 0 := rfl

theorem run_history_len_le (ops : List HistoryOp) :
    ∀ w : World, w.history_len ≤ HISTORY_MAXITEMS →
      (run_history ops w).history_len ≤ HISTORY_MAXITEMS := by
  induction ops with
  | nil => intro w h; exact h
  | cons op ops ih =>
    intro w h
    cases op with
    | add line => exact ih _ (add_to_history_len_le w line h)
    | clear => exact ih _ (by rw [clear_history_len]; exact Nat.zero_le _)

/-- C1: after any sequence of `add_to_history` and `clear_history` calls that
starts from the empty store, and after any prefix of it, `history_len` is at
most `HISTORY_MAXITEMS` (100). -/
theorem history_len_never_exceeds_max (ops : List HistoryOp) (k : Nat) :
    (run_history (ops.take k) World.init).history_len ≤ HISTORY_MAXITEMS ∧
      HISTORY_MAXITEMS = 100 :=
  ⟨run_history_len_le _ World.init (Nat.zero_le _), rfl⟩

theorem memmove_history_set (a0 : Slot) (rest : List Slot) (v : Slot)
    (h : rest.length = HISTORY_MAXITEMS - 1) :
    (memmove_history (a0 :: rest)).set (HISTORY_MAXITEMS - 1) v = rest ++ [v] := by
  unfold memmove_history
  have h1 : (List.drop 1 (a0 :: rest)).take (HISTORY_MAXITEMS - 1) = rest := by
    rw [List.drop_one, List.tail_cons, List.take_of_length_le (Nat.le_of_eq h)]
  have h2 : ((a0 :: rest).drop (HISTORY_MAXITEMS - 1)).length = 1 := by
    simp [h, HISTORY_MAXITEMS]
  obtain ⟨x, hx⟩ := List.length_eq_one.mp h2
  rw [h1, hx, List.set_append, if_neg (by omega), h]
  simp
theorem lines_of_append (a b : List Slot) :
    lines_of (a ++ b) =
      (lines_of a).bind (fun x => (lines_of b).map (fun y => x ++ y)) := by
  induction a with
  | nil => cases h : lines_of b <;> simp [lines_of, h]
  | cons s ss ih =>
    rw [List.cons_append]
    simp only [lines_of]
    rw [ih]
    cases s.line <;> cases lines_of ss <;> cases lines_of b <;> simp

theorem add_at_max (w : World) (line : CStr) (old : List CStr)
    (hold : entries w = some old) (harr : array_ok w = true)
    (hfull : w.history_len = HISTORY_MAXITEMS) :
    entries (add_to_history w line).2 = some (old.drop 1 ++ [line]) ∧
      history_at (add_to_history w line).2 0 = history_at w 1 := by
  unfold entries at hold
  unfold add_to_history entries history_at
  cases hh : w.history with
  | none => simp [hh, hfull, HISTORY_MAXITEMS] at hold
  | some arr =>
    simp only [hh] at hold
    simp only [array_ok, hh, beq_iff_eq] at harr
    rw [if_pos (by omega), hfull, ← harr, List.take_length] at hold
    cases arr with
    | nil => simp [HISTORY_MAXITEMS] at harr
    | cons a0 rest =>
      have hrest : rest.length = HISTORY_MAXITEMS - 1 := by simpa [HISTORY_MAXITEMS] using harr
      have hset := memmove_history_set a0 rest (Slot.live line) hrest
      simp only [lines_of] at hold
      simp only [hfull, if_true, hset]
      cases h0 : a0.line with
      | none => simp [h0] at hold
      | some l0 =>
        cases hr : lines_of rest with
        | none => simp [h0, hr] at hold
        | some ls =>
          simp [h0, hr] at hold
          subst hold
          have hlen : HISTORY_MAXITEMS - 1 + 1 ≤ (rest ++ [Slot.live line]).length := by
            simp [hrest]
          refine ⟨?_, ?_⟩
          · rw [if_pos hlen, List.take_of_length_le (by simp [hrest])]
            simp [lines_of_append, hr, lines_of, Slot.line]
          · cases rest with
            | nil => simp [HISTORY_MAXITEMS] at hrest
            | cons a1 rest1 => simp

theorem take_succ_set {α : Type} (a : α) :
    ∀ (l : List α) (n : Nat), n < l.length → (l.set n a).take (n + 1) = l.take n ++ [a] := by
  intro l
  induction l with
  | nil => intro n h; simp at h
  | cons x xs ih =>
    intro n h
    cases n with
    | zero => simp
    | succ n => simp [ih n (by simpa using h)]

theorem add_below_max (w : World) (line : CStr) (old : List CStr)
    (hold : entries w = some old) (harr : array_ok w = true)
    (hlt : w.history_len < HISTORY_MAXITEMS) :
    entries (add_to_history w line).2 = some (old ++ [line]) := by
  have hne : w.history_len ≠ HISTORY_MAXITEMS := Nat.ne_of_lt hlt
  unfold entries at hold
  unfold add_to_history entries
  simp only [hne, if_false]
  cases hh : w.history with
  | none =>
    simp only [hh] at hold
    by_cases h0 : w.history_len = 0
    · simp [h0] at hold
      subst hold
      simp [h0, HISTORY_MAXITEMS, List.replicate, lines_of, Slot.line]
    · simp [h0] at hold
  | some arr =>
    simp only [hh] at hold
    simp only [array_ok, hh, beq_iff_eq] at harr
    have hlt2 : w.history_len < arr.length := by omega
    rw [if_pos (Nat.le_of_lt hlt2)] at hold
    simp only [List.length_set]
    rw [if_pos (by omega), take_succ_set _ _ _ hlt2]
    simp [lines_of_append, hold, lines_of, Slot.line]

/-- C2: on a store holding the lines `old`, `add_to_history` makes the new
line the newest entry.  With fewer than `HISTORY_MAXITEMS` entries the contents
become `old ++ [line]`; with exactly `HISTORY_MAXITEMS` they become `old`
without its first entry, followed by `line`, and slot 0 then holds what slot 1
held before. -/
theorem add_to_history_appends (w : World) (line : CStr) (old : List CStr)
    (hold : entries w = some old) (harr : array_ok w = true)
    (hlen : w.history_len ≤ HISTORY_MAXITEMS) :
    entries (add_to_history w line).2 =
        some ((if w.history_len < HISTORY_MAXITEMS then old else old.drop 1) ++ [line]) ∧
      (w.history_len = HISTORY_MAXITEMS →
        history_at (add_to_history w line).2 0 = history_at w 1) := by
  by_cases hlt : w.history_len < HISTORY_MAXITEMS
  · rw [if_pos hlt]
    exact ⟨add_below_max w line old hold harr hlt, fun h => absurd h (Nat.ne_of_lt hlt)⟩
  · rw [if_neg hlt]
    have hfull : w.history_len = HISTORY_MAXITEMS := Nat.le_antisymm hlen (Nat.le_of_not_lt hlt)
    exact ⟨(add_at_max w line old hold harr hfull).1, fun _ => (add_at_max w line old hold harr hfull).2⟩

/-- C2 at the full store `0 .. 99`: adding `ls` drops `0`, keeps `1 .. 99` in
order and puts `ls` last; slot 0 then holds `1`. -/
theorem add_to_history_appends_witness :
    entries full_store = some ((List.range 100).map (Nat.toDigits 10)) ∧
      array_ok full_store = true ∧ full_store.history_len ≤ HISTORY_MAXITEMS ∧
      entries (add_to_history full_store "ls".toList).2 =
        some ((if full_store.history_len < HISTORY_MAXITEMS then
          (List.range 100).map (Nat.toDigits 10)
          else ((List.range 100).map (Nat.toDigits 10)).drop 1) ++ ["ls".toList]) ∧
      history_at (add_to_history full_store "ls".toList).2 0 = some "1".toList :=
  ⟨by decide, by decide, by decide,
    (add_to_history_appends full_store "ls".toList ((List.range 100).map (Nat.toDigits 10))
      (by decide) (by decide) (by decide)).1,
    ((add_to_history_appends full_store "ls".toList ((List.range 100).map (Nat.toDigits 10))
      (by decide) (by decide) (by decide)).2 (by decide)).trans (by decide)⟩

/-! ## Stores the program can build -/

theorem array_ok_add (w : World) (line : CStr) (harr : array_ok w = true) :
    array_ok (add_to_history w line).2 = true := by
  unfold add_to_history array_ok
  unfold array_ok at harr
  cases hh : w.history with
  | none => simp [memmove_history, HISTORY_MAXITEMS]; split <;> simp
  | some arr =>
    simp only [hh, beq_iff_eq] at harr
    simp only [List.length_set, beq_iff_eq]
    split
    · simp [memmove_history, harr, HISTORY_MAXITEMS]
    · exact harr

theorem array_ok_clear (w : World) (harr : array_ok w = true) :
    array_ok (clear_history w).2 = true := by
  unfold clear_history array_ok
  unfold array_ok at harr
  cases hh : w.history with
  | none => rfl
  | some arr =>
    simp only [hh, beq_iff_eq] at harr
    simp only [Option.map_some', beq_iff_eq, List.length_append, List.length_replicate,
      List.length_drop]
    omega

theorem entries_clear (w : World) : entries (clear_history w).2 = some [] := by
  unfold entries clear_history
  cases w.history <;> simp [lines_of]

/-- Every store that calls of `add_to_history` and `clear_history` build from
the start-up state holds live lines in its first `history_len` slots, has its
hundred slots once allocated, and holds at most `HISTORY_MAXITEMS` lines. -/
theorem run_history_well_formed (ops : List HistoryOp) :
    ∀ w : World, (entries w).isSome = true → array_ok w = true →
      w.history_len ≤ HISTORY_MAXITEMS →
      (entries (run_history ops w)).isSome = true ∧ array_ok (run_history ops w) = true ∧
        (run_history ops w).history_len ≤ HISTORY_MAXITEMS := by
  induction ops with
  | nil => intro w h1 h2 h3; exact ⟨h1, h2, h3⟩
  | cons op ops ih =>
    intro w h1 h2 h3
    cases op with
    | add line =>
      obtain ⟨old, hold⟩ := Option.isSome_iff_exists.mp h1
      refine ih _ ?_ (array_ok_add w line h2) (add_to_history_len_le w line h3)
      by_cases hlt : w.history_len < HISTORY_MAXITEMS
      · rw [add_below_max w line old hold h2 hlt]; rfl
      · rw [(add_at_max w line old hold h2 (Nat.le_antisymm h3 (Nat.le_of_not_lt hlt))).1]; rfl
    | clear =>
      refine ih _ ?_ (array_ok_clear w h2) (by rw [clear_history_len]; exact Nat.zero_le _)
      rw [entries_clear]; rfl

/-! ## The read-eval loop: what is skipped and what is recorded -/

theorem accepted_false (input : CStr)
    (h : input = [] ∨ (∀ c ∈ input, isspace c = true) ∨ input.head? = some '|') :
    accepted input = false := by
  unfold accepted
  rcases h with h | h | h
  · subst h; rfl
  · have hb : is_blank input = true := by
      unfold is_blank
      exact List.all_eq_true.mpr h
    simp [hb]
  · cases input with
    | nil => simp at h
    | cons c cs =>
      simp only [List.head?_cons, Option.some.injEq] at h
      subst h
      simp

/-- C3 fails at the line ` history` (one leading space): the loop accepts it,
it tokenizes to the single stage `history` without argument, yet
`is_history_command` answers 0 on the buffer and the line is added to the
history; the listing it runs already shows it. -/
theorem history_with_leading_space_is_recorded :
    accepted " history".toList = true ∧
      parse_commands_with_pipes " history".toList =
        { cmd_count := 1,
          cmds := [some { argc := 1, name := some "history".toList,
                          argv := ["history".toList], fds := (0, 0) }] } ∧
      is_history_command (buffer_after_parse " history".toList) = false ∧
      entries (record World.init " history".toList
        (parse_commands_with_pipes " history".toList)) = some [" history".toList] ∧
      main_iter 0 env_ok MainState.init " history".toList =
        MainOutcome.next
          { w := (((one_store " history".toList).print "$".toList).log
                (Event.parse " history".toList)).print
                  (history_line 0 " history".toList) |>.log Event.wait,
            exec_ret := some 1 } := by
  decide

/-- C4 fails at the line `historyfoo`: the loop accepts it, it is a single
stage whose command name is `historyfoo`, not a built-in, yet
`is_history_command` answers 1 and the recording step leaves every store as it
was; the command is then run without having been recorded. -/
theorem history_prefixed_name_is_not_recorded (w : World) :
    accepted "historyfoo".toList = true ∧
      parse_commands_with_pipes "historyfoo".toList =
        { cmd_count := 1,
          cmds := [some { argc := 1, name := some "historyfoo".toList,
                          argv := ["historyfoo".toList], fds := (0, 0) }] } ∧
      check_built_in (parse_command "historyfoo".toList) = some false ∧
      is_history_command (buffer_after_parse "historyfoo".toList) = true ∧
      record w "historyfoo".toList (parse_commands_with_pipes "historyfoo".toList) = w ∧
      main_iter 0 env_ok MainState.init "historyfoo".toList =
        MainOutcome.next
          { w := { World.init with
                   stdout := "$".toList,
                   trace := [Event.parse "historyfoo".toList,
                     Event.fork "historyfoo".toList ["historyfoo".toList] (0, 1) false 42,
                     Event.wait],
                   forks := 1 },
            exec_ret := some 42 } :=
  ⟨by decide, by decide, by decide, by decide, rfl, by decide⟩

/-- C5: on a line that is empty, all white space, or begins with `|`, one
iteration of the loop of `main` only writes the prompt: the line is neither
tokenized nor executed (the event log is unchanged) and the history store is
unchanged. -/
theorem main_skips_blank_and_pipe_led (fuel : Nat) (env : Env) (s : MainState) (input : CStr)
    (h : input = [] ∨ (∀ c ∈ input, isspace c = true) ∨ input.head? = some '|') :
    main_iter fuel env s input = MainOutcome.next { s with w := s.w.print "$".toList } ∧
      (s.w.print "$".toList).history = s.w.history ∧
      (s.w.print "$".toList).history_len = s.w.history_len ∧
      (s.w.print "$".toList).trace = s.w.trace := by
  refine ⟨?_, rfl, rfl, rfl⟩
  unfold main_iter
  simp [accepted_false input h]

/-- C5 at the line `|ls`. -/
theorem main_skips_blank_and_pipe_led_witness :
    ("|ls".toList = [] ∨ (∀ c ∈ "|ls".toList, isspace c = true) ∨
        "|ls".toList.head? = some '|') ∧
      main_iter 0 env_ok MainState.init "|ls".toList =
        MainOutcome.next { MainState.init with w := MainState.init.w.print "$".toList } :=
  ⟨Or.inr (Or.inr rfl),
    (main_skips_blank_and_pipe_led 0 env_ok MainState.init "|ls".toList (Or.inr (Or.inr rfl))).1⟩

/-! ## The `history` built-in -/

/-- C6 fails for `N = history_len` and for negative `N`: on the start-up
store `history 0` passes the test `offset > history_len` and evaluates
`history[0]` through the NULL array; on a store of one line `history 1`
evaluates the NULL slot 1 and `history -1` evaluates `history[-1]`.  Only
`N > history_len` (here `history 2`) gets the error status 1; after the
conversion to `int`, `history 4294967296` recalls line 0 and returns 0. -/
theorem recall_outside_store_faults :
    handle_history (exec_commands 0 env_ok) World.init
        (parse_commands_with_pipes "history 0".toList) (parse_command "history 0".toList) =
      Outcome.fault (World.init.log (Event.recall 0)) ∧
    handle_history (exec_commands 0 env_ok) (one_store "ls".toList)
        (parse_commands_with_pipes "history 1".toList) (parse_command "history 1".toList) =
      Outcome.fault ((one_store "ls".toList).log (Event.recall 1)) ∧
    handle_history (exec_commands 0 env_ok) (one_store "ls".toList)
        (parse_commands_with_pipes "history -1".toList) (parse_command "history -1".toList) =
      Outcome.fault ((one_store "ls".toList).log (Event.recall (-1))) ∧
    handle_history (exec_commands 0 env_ok) (one_store "ls".toList)
        (parse_commands_with_pipes "history 2".toList) (parse_command "history 2".toList) =
      Outcome.ret 1
        ((one_store "ls".toList).eprint "error: offset > number of items\n".toList) ∧
    (handle_history (exec_commands 0 env_ok) (one_store "/bin/ls".toList)
        (parse_commands_with_pipes "history 4294967296".toList)
        (parse_command "history 4294967296".toList)).value = some 0 := by
  decide

/-- C7 fails: recalling the stored `/bin/ls`, `exec_commands` returns the
child's pid 42 and `handle_history` returns 0; recalling a stored `exit`,
`exec_commands` returns -1 and `handle_history` returns 0. -/
theorem recall_status_is_dropped :
    (exec_commands 0 env_ok
        (((one_store "/bin/ls".toList).log (Event.recall 0)).log (Event.parse "/bin/ls".toList))
        (parse_commands_with_pipes "/bin/ls".toList)).value = some 42 ∧
    (handle_history (exec_commands 0 env_ok) (one_store "/bin/ls".toList)
        (parse_commands_with_pipes "history 0".toList)
        (parse_command "history 0".toList)).value = some 0 ∧
    (exec_commands 0 env_ok
        (((one_store "exit".toList).log (Event.recall 0)).log (Event.parse "exit".toList))
        (parse_commands_with_pipes "exit".toList)).value = some (-1) ∧
    (handle_history (exec_commands 0 env_ok) (one_store "exit".toList)
        (parse_commands_with_pipes "history 0".toList)
        (parse_command "history 0".toList)).value = some 0 := by
  decide

/-- C7 as amended: for `history N` with `N` the index of a stored line,
`handle_history` runs `exec_commands` on the re-tokenized line and ends as that
run ends, except that the value it returns is 0 whatever the run returned. -/
theorem handle_history_recall (exec : World → commands → Outcome) (w : World)
    (cmds : commands) (cmd : command) (arg line : CStr) (n : Int)
    (hargc : cmd.argc > 1) (harg : cmd.argv.get? 1 = some arg) (hc : arg ≠ "-c".toList)
    (hnum : strtol arg = some n) (hlt : long_to_int n < (w.history_len : Int))
    (hline : history_at w (long_to_int n) = some line) :
    handle_history exec w cmds cmd =
      (exec ((w.log (Event.recall (long_to_int n))).log (Event.parse line))
        (parse_commands_with_pipes line)).with_value 0 := by
  unfold handle_history
  have h1 : ¬ cmd.argc = 1 := by omega
  have h2 : ¬ long_to_int n > (w.history_len : Int) := by omega
  simp only [h1, if_false, hargc, if_true, harg, beq_iff_eq, hc, hnum, h2, hline]
  cases exec ((w.log (Event.recall (long_to_int n))).log (Event.parse line))
    (parse_commands_with_pipes line) <;> rfl

/-- C7 as amended, at the stored line `/bin/ls` and the command `history 0`. -/
theorem handle_history_recall_witness :
    (parse_command "history 0".toList).argc > 1 ∧
      (parse_command "history 0".toList).argv.get? 1 = some "0".toList ∧
      "0".toList ≠ "-c".toList ∧ strtol "0".toList = some 0 ∧
      long_to_int 0 < ((one_store "/bin/ls".toList).history_len : Int) ∧
      history_at (one_store "/bin/ls".toList) (long_to_int 0) = some "/bin/ls".toList ∧
      handle_history (exec_commands 0 env_ok) (one_store "/bin/ls".toList)
          (parse_commands_with_pipes "history 0".toList) (parse_command "history 0".toList) =
        (exec_commands 0 env_ok
          (((one_store "/bin/ls".toList).log (Event.recall (long_to_int 0))).log
            (Event.parse "/bin/ls".toList))
          (parse_commands_with_pipes "/bin/ls".toList)).with_value 0 :=
  ⟨by decide, by decide, by decide, by decide, by decide, by decide,
    handle_history_recall (exec_commands 0 env_ok) (one_store "/bin/ls".toList)
      (parse_commands_with_pipes "history 0".toList) (parse_command "history 0".toList)
      "0".toList "/bin/ls".toList 0 (by decide) (by decide) (by decide) (by decide)
      (by decide) (by decide)⟩

theorem lines_of_get (a : List Slot) :
    ∀ (ls : List CStr), lines_of a = some ls →
      ls.length = a.length ∧ ∀ j, j < ls.length → a.get? j = (ls.get? j).map Slot.live := by
  induction a with
  | nil =>
    intro ls h
    simp only [lines_of, Option.some.injEq] at h
    subst h
    exact ⟨rfl, fun j hj => absurd hj (Nat.not_lt_zero _)⟩
  | cons s ss ih =>
    intro ls h
    simp only [lines_of] at h
    cases hs : s.line with
    | none => simp [hs] at h
    | some l =>
      cases hr : lines_of ss with
      | none => simp [hs, hr] at h
      | some rest =>
        simp [hs, hr] at h
        subst h
        obtain ⟨hlen, hget⟩ := ih rest hr
        refine ⟨by simp [hlen], ?_⟩
        intro j hj
        cases j with
        | zero =>
          cases s <;> simp [Slot.line] at hs
          subst hs
          simp
        | succ j =>
          have := hget j (by simpa using hj)
          simpa using this

theorem history_at_of_entries (w : World) (es : List CStr) (h : entries w = some es) :
    es.length = w.history_len ∧
      ∀ j, j < es.length → history_at w (j : Int) = es.get? j := by
  unfold entries at h
  cases hh : w.history with
  | none =>
    simp only [hh] at h
    by_cases h0 : w.history_len = 0
    · simp [h0] at h
      subst h
      exact ⟨h0.symm, fun j hj => absurd hj (Nat.not_lt_zero _)⟩
    · simp [h0] at h
  | some arr =>
    simp only [hh] at h
    by_cases hle : w.history_len ≤ arr.length
    · rw [if_pos hle] at h
      obtain ⟨hlen, hget⟩ := lines_of_get _ es h
      have hlen2 : es.length = w.history_len := by
        rw [hlen, List.length_take]; omega
      refine ⟨hlen2, ?_⟩
      intro j hj
      have hj2 := hget j hj
      rw [List.get?_eq_getElem?, List.getElem?_take_of_lt (by omega)] at hj2
      unfold history_at
      simp only [hh]
      have hnn : ¬ ((j : Int) < 0) := by omega
      rw [if_neg hnn, Int.toNat_ofNat, List.get?_eq_getElem?, hj2]
      have : es.get? j = some (es.get ⟨j, hj⟩) := List.get?_eq_get hj
      rw [this]
      rfl
    · rw [if_neg hle] at h
      exact absurd h (by simp)

theorem print_history_spec :
    ∀ (ls : List CStr) (i : Nat) (w : World),
      (∀ j, j < ls.length → history_at w ((i + j : Nat) : Int) = ls.get? j) →
      print_history ls.length i w =
        Outcome.ret 1 (w.print ((ls.enumFrom i).map (fun p => history_line p.1 p.2)).flatten) := by
  intro ls
  induction ls with
  | nil =>
    intro i w _
    simp [print_history, World.print]
  | cons e es ih =>
    intro i w h
    have h0 := h 0 (by simp)
    simp only [Nat.add_zero, List.get?_cons_zero] at h0
    simp only [List.length_cons, print_history, h0]
    have hstep := ih (i + 1) (w.print (Nat.toDigits 10 i ++ [' '] ++ e ++ [Char.ofNat 10])) (by
      intro j hj
      have := h (j + 1) (by simpa using hj)
      simp only [List.get?_cons_succ] at this
      rw [← this]
      have e1 : i + 1 + j = i + (j + 1) := by omega
      rw [e1]
      rfl)
    rw [hstep]
    simp [World.print, history_line, List.enumFrom]

theorem handle_history_listing (exec : World → commands → Outcome) (w : World)
    (cmds : commands) (cmd : command) (es : List CStr)
    (hes : entries w = some es) (hargc : cmd.argc = 1) :
    handle_history exec w cmds cmd = Outcome.ret 1 (w.print (history_listing es).flatten) := by
  obtain ⟨hlen, hget⟩ := history_at_of_entries w es hes
  unfold handle_history
  rw [if_pos hargc, ← hlen]
  exact print_history_spec es 0 w (by simpa using hget)

/-- C8: on a store holding the lines `es`, `history` without argument appends
to standard output exactly the `es.length` lines of `history_listing es`, the
`i`-th being the decimal index `i`, one space, the `i`-th line and a newline,
oldest first, and leaves the store as it was. -/
theorem history_lists_all_entries (exec : World → commands → Outcome) (w : World)
    (cmds : commands) (cmd : command) (es : List CStr)
    (hes : entries w = some es) (hargc : cmd.argc = 1) :
    handle_history exec w cmds cmd = Outcome.ret 1 (w.print (history_listing es).flatten) ∧
      (history_listing es).length = es.length ∧
      (∀ i, i < es.length →
        (history_listing es).get? i = (es.get? i).map
            (fun e => Nat.toDigits 10 i ++ [' '] ++ e ++ [Char.ofNat 10])) ∧
      (w.print (history_listing es).flatten).history = w.history ∧
      (w.print (history_listing es).flatten).history_len = w.history_len := by
  refine ⟨handle_history_listing exec w cmds cmd es hes hargc,
    by simp [history_listing], ?_, rfl, rfl⟩
  intro i _
  simp [history_listing, List.get?_eq_getElem?, List.getElem?_enumFrom, history_line]
  rfl

/-- C8 at the store holding `ls` and `pwd`: the output is `0 ls` and `1 pwd`,
one per line. -/
theorem history_lists_all_entries_witness :
    entries (add_to_history (one_store "ls".toList) "pwd".toList).2 =
        some ["ls".toList, "pwd".toList] ∧
      (parse_command "history".toList).argc = 1 ∧
      handle_history (exec_commands 0 env_ok)
          (add_to_history (one_store "ls".toList) "pwd".toList).2
          (parse_commands_with_pipes "history".toList) (parse_command "history".toList) =
        Outcome.ret 1 ((add_to_history (one_store "ls".toList) "pwd".toList).2.print
          (history_listing ["ls".toList, "pwd".toList]).flatten) ∧
      (history_listing ["ls".toList, "pwd".toList]).flatten =
        "0 ls".toList ++ [Char.ofNat 10] ++ "1 pwd".toList ++ [Char.ofNat 10] :=
  ⟨by decide, by decide,
    (history_lists_all_entries (exec_commands 0 env_ok)
      (add_to_history (one_store "ls".toList) "pwd".toList).2
      (parse_commands_with_pipes "history".toList) (parse_command "history".toList)
      ["ls".toList, "pwd".toList] (by decide) (by decide)).1,
    by decide⟩

/-- C9 fails: `history` without argument returns 1, the value of the error
returns (here `history x` and an index beyond the store), while `history -c`
and a successful `cd` return 0. -/
theorem history_listing_returns_one :
    (handle_history (exec_commands 0 env_ok) (one_store "ls".toList)
        (parse_commands_with_pipes "history".toList)
        (parse_command "history".toList)).value = some 1 ∧
    (parse_command "history".toList).argc = 1 ∧
    (handle_history (exec_commands 0 env_ok) (one_store "ls".toList)
        (parse_commands_with_pipes "history x".toList)
        (parse_command "history x".toList)).value = some 1 ∧
    (handle_history (exec_commands 0 env_ok) (one_store "ls".toList)
        (parse_commands_with_pipes "history 7".toList)
        (parse_command "history 7".toList)).value = some 1 ∧
    (handle_history (exec_commands 0 env_ok) (one_store "ls".toList)
        (parse_commands_with_pipes "history -c".toList)
        (parse_command "history -c".toList)).value = some 0 ∧
    (handle_built_in env_ok (exec_commands 0 env_ok) (one_store "ls".toList)
        (parse_commands_with_pipes "cd /tmp".toList)
        (parse_command "cd /tmp".toList)).value = some 0 := by
  decide

/-- C10: `history -c` returns 0 and leaves `history_len = 0` and no stored
line; the `history` listing that follows returns without writing anything. -/
theorem history_c_empties_store (exec : World → commands → Outcome) (w : World)
    (cmds : commands) (cmd : command)
    (hargc : cmd.argc > 1) (harg : cmd.argv.get? 1 = some "-c".toList) :
    handle_history exec w cmds cmd = Outcome.ret 0 (clear_history w).2 ∧
      (clear_history w).2.history_len = 0 ∧
      entries (clear_history w).2 = some [] ∧
      history_listing [] = [] ∧
      handle_history exec (clear_history w).2 (parse_commands_with_pipes "history".toList)
          (parse_command "history".toList) = Outcome.ret 1 (clear_history w).2 := by
  have hent : entries (clear_history w).2 = some [] := by
    unfold entries clear_history
    cases w.history <;> simp [lines_of]
  refine ⟨?_, rfl, hent, rfl, ?_⟩
  · unfold handle_history
    have h1 : ¬ cmd.argc = 1 := by omega
    simp only [h1, if_false, hargc, if_true, harg]
    rfl
  · have h := handle_history_listing exec (clear_history w).2
      (parse_commands_with_pipes "history".toList) (parse_command "history".toList) []
      hent (by decide)
    rw [h]
    simp [history_listing, World.print]

/-- C10 at the store holding `ls` and the command parsed from `history -c`. -/
theorem history_c_empties_store_witness :
    (parse_command "history -c".toList).argc > 1 ∧
      (parse_command "history -c".toList).argv.get? 1 = some "-c".toList ∧
      handle_history (exec_commands 0 env_ok) (one_store "ls".toList)
          (parse_commands_with_pipes "history -c".toList)
          (parse_command "history -c".toList) =
        Outcome.ret 0 (clear_history (one_store "ls".toList)).2 ∧
      (clear_history (one_store "ls".toList)).2.history_len = 0 :=
  ⟨by decide, by decide,
    (history_c_empties_store (exec_commands 0 env_ok) (one_store "ls".toList)
      (parse_commands_with_pipes "history -c".toList) (parse_command "history -c".toList)
      (by decide) (by decide)).1,
    rfl⟩

/-! ## The tokenizer and the executor on ill-formed pipelines -/

/-- C15 fails at the line `ls<TAB>-l`: the loop accepts it and `strtok` with
the delimiter `" "` leaves it whole, so the only argument contains a tab, a
byte that `isspace` and `is_blank` treat as white space. -/
theorem tab_stays_inside_argument :
    parse_commands_with_pipes ("ls".toList ++ [Char.ofNat 9] ++ "-l".toList) =
      { cmd_count := 1,
        cmds := [some { argc := 1,
                        name := some ("ls".toList ++ [Char.ofNat 9] ++ "-l".toList),
                        argv := ["ls".toList ++ [Char.ofNat 9] ++ "-l".toList],
                        fds := (0, 0) }] } ∧
      isspace (Char.ofNat 9) = true ∧
      is_blank [Char.ofNat 9] = true ∧
      accepted ("ls".toList ++ [Char.ofNat 9] ++ "-l".toList) = true := by
  decide

/-- C16 fails at the lines `ls | ` and ` |ls`: the second, respectively first,
stage has `argc = 0` and a NULL name, and the built-in test of `exec_commands`
passes that NULL name to `strcmp`; no status is returned. -/
theorem empty_stage_faults (fuel : Nat) (env : Env) (w : World) :
    accepted "ls | ".toList = true ∧
      parse_commands_with_pipes "ls | ".toList =
        { cmd_count := 2,
          cmds := [some { argc := 1, name := some "ls".toList, argv := ["ls".toList],
                          fds := (0, 0) },
                   some { argc := 0, name := none, argv := [], fds := (0, 0) }] } ∧
      exec_commands fuel env w (parse_commands_with_pipes "ls | ".toList) = Outcome.fault w ∧
      parse_commands_with_pipes " |ls".toList =
        { cmd_count := 2,
          cmds := [some { argc := 0, name := none, argv := [], fds := (0, 0) },
                   some { argc := 1, name := some "ls".toList, argv := ["ls".toList],
                          fds := (0, 0) }] } ∧
      exec_commands fuel env w (parse_commands_with_pipes " |ls".toList) = Outcome.fault w := by
  have h1 : parse_commands_with_pipes "ls | ".toList =
        { cmd_count := 2,
          cmds := [some { argc := 1, name := some "ls".toList, argv := ["ls".toList],
                          fds := (0, 0) },
                   some { argc := 0, name := none, argv := [], fds := (0, 0) }] } := by decide
  have h2 : parse_commands_with_pipes " |ls".toList =
        { cmd_count := 2,
          cmds := [some { argc := 0, name := none, argv := [], fds := (0, 0) },
                   some { argc := 1, name := some "ls".toList, argv := ["ls".toList],
                          fds := (0, 0) }] } := by decide
  refine ⟨by decide, h1, ?_, h2, ?_⟩
  · rw [h1]; cases fuel <;> rfl
  · rw [h2]; cases fuel <;> rfl

/-- C19 fails at the line `ls|`: the loop accepts it, `cmd_count` is 2, the
token loop parses one command and `cmds[1]` stays NULL; `exec_commands` then
dereferences it. -/
theorem trailing_pipe_leaves_null_slot (fuel : Nat) (env : Env) (w : World) :
    accepted "ls|".toList = true ∧
      parse_commands_with_pipes "ls|".toList =
        { cmd_count := 2,
          cmds := [some { argc := 1, name := some "ls".toList, argv := ["ls".toList],
                          fds := (0, 0) },
                   none] } ∧
      (parse_pipes_loop ("ls|".toList.count '|' + 1) (strtok '|' "ls|".toList)).length = 1 ∧
      exec_commands fuel env w (parse_commands_with_pipes "ls|".toList) = Outcome.fault w := by
  have h1 : parse_commands_with_pipes "ls|".toList =
        { cmd_count := 2,
          cmds := [some { argc := 1, name := some "ls".toList, argv := ["ls".toList],
                          fds := (0, 0) },
                   none] } := by decide
  refine ⟨by decide, h1, by decide, ?_⟩
  rw [h1]; cases fuel <;> rfl

/-! ## `cd` without argument -/

/-- C13 fails: for `cd` with `argc = 1` there is no test of the argument;
`handle_built_in` calls `chdir` on the NULL `argv[1]`, and when that call fails
it reports `unable to change dir` and returns 1. -/
theorem cd_without_argument_calls_chdir (env : Env) (exec : World → commands → Outcome)
    (w : World) (cmds : commands) :
    parse_command "cd".toList =
        { argc := 1, name := some "cd".toList, argv := ["cd".toList], fds := (0, 0) } ∧
      handle_built_in env exec w cmds (parse_command "cd".toList) =
        Outcome.ret 1
          ((w.log (Event.chdir none (-1))).eprint "error: unable to change dir\n".toList) ∧
      (exec_commands 0 env_ok World.init (parse_commands_with_pipes "cd".toList)) =
        Outcome.ret 1
          { World.init with
            stderr := "error: unable to change dir\n".toList,
            trace := [Event.chdir none (-1), Event.wait] } := by
  have hp : parse_command "cd".toList =
      { argc := 1, name := some "cd".toList, argv := ["cd".toList], fds := (0, 0) } := by
    decide
  refine ⟨hp, ?_, by decide⟩
  rw [hp]
  rfl

/-! ## A recorded line that recalls itself -/

theorem parse_self_recall :
    parse_commands_with_pipes " history 0".toList =
      { cmd_count := 1, cmds := [some self_recall] } := by decide

theorem history_at_log (w : World) (e : Event) (n : Int) :
    history_at (w.log e) n = history_at w n := rfl

theorem handle_history_self_recall (exec : World → commands → Outcome) (w : World)
    (cmds : commands) (fds : Int × Int)
    (h : history_at w 0 = some " history 0".toList) :
    handle_history exec w cmds { self_recall with fds := fds } =
      (exec ((w.log (Event.recall 0)).log (Event.parse " history 0".toList))
        (parse_commands_with_pipes " history 0".toList)).with_value 0 := by
  unfold handle_history
  have h3 : strtol "0".toList = some 0 := by decide
  have h4 : long_to_int 0 = 0 := by decide
  have h5 : ("0".toList == "-c".toList) = false := by decide
  have h6 : ¬ ((0 : Int) > (w.history_len : Int)) := by omega
  simp only [self_recall, show ¬ (2 = 1) by decide, if_false, show 2 > 1 by decide, if_true,
    show ["history".toList, "0".toList].get? 1 = some "0".toList from rfl, h5, h3, h4, h6, h,
    Bool.false_eq_true]
  cases exec ((w.log (Event.recall 0)).log (Event.parse " history 0".toList))
    (parse_commands_with_pipes " history 0".toList) <;> rfl

theorem exec_commands_self_recall (env : Env) :
    ∀ (fuel : Nat) (w : World), history_at w 0 = some " history 0".toList →
      exec_commands fuel env w (parse_commands_with_pipes " history 0".toList) =
        Outcome.nofuel := by
  intro fuel
  induction fuel with
  | zero =>
    intro w h
    rw [parse_self_recall]
    simp only [exec_commands, exec_commands_body, if_true, List.get?_cons_zero, exec_command]
    have hb : check_built_in { self_recall with fds := (STDIN_FILENO, STDOUT_FILENO) } =
      some true := by decide
    rw [hb]
    simp only [handle_built_in, self_recall]
    have e1 : ("history".toList == "exit".toList) = false := by decide
    have e2 : ("history".toList == "cd".toList) = false := by decide
    simp only [e1, e2, Bool.false_eq_true, if_false, beq_self_eq_true, if_true]
    have := handle_history_self_recall (fun _ _ => Outcome.nofuel) w
      { cmd_count := 1, cmds := [some self_recall].set 0
          (some { self_recall with fds := (STDIN_FILENO, STDOUT_FILENO) }) }
      (STDIN_FILENO, STDOUT_FILENO) h
    simp only [self_recall] at this
    rw [this]
    rfl
  | succ fuel ih =>
    intro w h
    have hrec := ih ((w.log (Event.recall 0)).log (Event.parse " history 0".toList)) h
    rw [parse_self_recall] at hrec ⊢
    simp only [exec_commands, exec_commands_body, if_true, List.get?_cons_zero, exec_command]
    have hb : check_built_in { self_recall with fds := (STDIN_FILENO, STDOUT_FILENO) } =
      some true := by decide
    rw [hb]
    simp only [handle_built_in, self_recall]
    have e1 : ("history".toList == "exit".toList) = false := by decide
    have e2 : ("history".toList == "cd".toList) = false := by decide
    simp only [e1, e2, Bool.false_eq_true, if_false, beq_self_eq_true, if_true]
    have := handle_history_self_recall (exec_commands fuel env) w
      { cmd_count := 1, cmds := [some self_recall].set 0
          (some { self_recall with fds := (STDIN_FILENO, STDOUT_FILENO) }) }
      (STDIN_FILENO, STDOUT_FILENO) h
    simp only [self_recall] at this
    rw [this, parse_self_recall, hrec]
    rfl

/-- C20 fails at the line ` history 0` typed first: the loop accepts and
records it (its first byte is a space), it tokenizes to the single stage
`history 0`, and the recall of line 0 re-enters `exec_commands` on the same
line without end: whatever the bound on the nesting, the bound is exhausted. -/
theorem recorded_recall_never_returns (fuel : Nat) (env : Env) :
    accepted " history 0".toList = true ∧
    entries (record World.init " history 0".toList
        (parse_commands_with_pipes " history 0".toList)) = some [" history 0".toList] ∧
    main_iter fuel env MainState.init " history 0".toList = MainOutcome.nofuel := by
  refine ⟨by decide, by decide, ?_⟩
  unfold main_iter
  have ha : accepted " history 0".toList = true := by decide
  simp only [ha, if_true]
  rw [exec_commands_self_recall env fuel _ (by decide)]

/-! ## Pipelines that contain a built-in -/

theorem exec_commands_unfold (fuel : Nat) (env : Env) (w : World) (cmds : commands) :
    exec_commands fuel env w cmds = exec_commands_body env (recall_exec fuel env) w cmds := by
  cases fuel <;> rfl

theorem stage_name_some (cmds : commands) (i : Nat) (name : CStr)
    (h : stage_name cmds i = some name) :
    ∃ cmd, cmds.cmds.get? i = some (some cmd) ∧ cmd.name = some name := by
  unfold stage_name at h
  cases hc : cmds.cmds.get? i with
  | none => rw [hc] at h; exact absurd h (by simp)
  | some oc =>
    cases oc with
    | none => rw [hc] at h; exact absurd h (by simp)
    | some cmd => rw [hc] at h; exact ⟨cmd, rfl, h⟩

theorem any_built_in_true (cmds : commands) :
    ∀ (left i : Nat),
      (∀ j, i ≤ j → j < i + left → (stage_name cmds j).isSome = true) →
      (∃ j, i ≤ j ∧ j < i + left ∧
        (stage_name cmds j = some "exit".toList ∨ stage_name cmds j = some "cd".toList ∨
          stage_name cmds j = some "history".toList)) →
      any_built_in left i cmds = some true := by
  intro left
  induction left with
  | zero =>
    intro i _ hb
    obtain ⟨j, h1, h2, _⟩ := hb
    omega
  | succ left ih =>
    intro i hwf hb
    obtain ⟨name, hname⟩ := Option.isSome_iff_exists.mp (hwf i (Nat.le_refl _) (by omega))
    obtain ⟨cmd, hcmd, hcn⟩ := stage_name_some cmds i name hname
    simp only [any_built_in, hcmd, check_built_in, hcn]
    by_cases hbi : (name == "exit".toList || name == "cd".toList || name == "history".toList) = true
    · rw [hbi]
    · have hbf : (name == "exit".toList || name == "cd".toList || name == "history".toList) = false := by
        simpa using hbi
      rw [hbf]
      apply ih (i + 1)
      · intro j h1 h2
        exact hwf j (by omega) (by omega)
      · obtain ⟨j, h1, h2, h3⟩ := hb
        by_cases hji : j = i
        · subst hji
          rw [hname] at h3
          exfalso
          rcases h3 with h3 | h3 | h3 <;> (simp only [Option.some.injEq] at h3; subst h3; simp at hbf)
        · exact ⟨j, by omega, by omega, h3⟩

/-- C11: for a pipeline of two or more stages that all have a name, one of
them named `exit`, `cd` or `history`, `exec_commands` returns 0 and only
writes its message to the error stream: no pipe, no `fork`, no `chdir`, no
event at all is added, and the history store, the working directory and
standard output are unchanged. -/
theorem builtin_in_pipeline_rejected (fuel : Nat) (env : Env) (w : World) (cmds : commands)
    (hn : 2 ≤ cmds.cmd_count)
    (hwf : ∀ i, i < cmds.cmd_count → (stage_name cmds i).isSome = true)
    (hb : ∃ i, i < cmds.cmd_count ∧
      (stage_name cmds i = some "exit".toList ∨ stage_name cmds i = some "cd".toList ∨
        stage_name cmds i = some "history".toList)) :
    exec_commands fuel env w cmds =
        Outcome.ret 0 (w.eprint "error: no builtins in pipe\n".toList) ∧
      (w.eprint "error: no builtins in pipe\n".toList).trace = w.trace ∧
      (w.eprint "error: no builtins in pipe\n".toList).history = w.history ∧
      (w.eprint "error: no builtins in pipe\n".toList).history_len = w.history_len ∧
      (w.eprint "error: no builtins in pipe\n".toList).cwd = w.cwd ∧
      (w.eprint "error: no builtins in pipe\n".toList).stdout = w.stdout := by
  refine ⟨?_, rfl, rfl, rfl, rfl, rfl⟩
  rw [exec_commands_unfold]
  unfold exec_commands_body
  have h1 : ¬ cmds.cmd_count = 1 := by omega
  have h0 : ¬ cmds.cmd_count = 0 := by omega
  have hany : any_built_in cmds.cmd_count 0 cmds = some true := by
    apply any_built_in_true
    · intro j _ h2
      exact hwf j (by omega)
    · obtain ⟨i, hi, h⟩ := hb
      exact ⟨i, Nat.zero_le _, by omega, h⟩
  simp only [h1, h0, if_false, hany]

/-- C11 at the pipeline parsed from `ls | cd /tmp`. -/
theorem builtin_in_pipeline_rejected_witness :
    2 ≤ (parse_commands_with_pipes "ls | cd /tmp".toList).cmd_count ∧
      (∀ i, i < (parse_commands_with_pipes "ls | cd /tmp".toList).cmd_count →
        (stage_name (parse_commands_with_pipes "ls | cd /tmp".toList) i).isSome = true) ∧
      stage_name (parse_commands_with_pipes "ls | cd /tmp".toList) 1 = some "cd".toList ∧
      exec_commands 0 env_ok World.init (parse_commands_with_pipes "ls | cd /tmp".toList) =
        Outcome.ret 0 (World.init.eprint "error: no builtins in pipe\n".toList) :=
  ⟨by decide, by decide, by decide,
    (builtin_in_pipeline_rejected 0 env_ok World.init
      (parse_commands_with_pipes "ls | cd /tmp".toList) (by decide) (by decide)
      ⟨1, by decide, Or.inr (Or.inl (by decide))⟩).1⟩

/-! ## Pipelines of external commands: wiring, spawning, closing -/


theorem set_stdin_get (l : List (Option command)) (i j : Nat) (fd : Int) :
    (set_stdin l i fd)[j]? =
      (l[j]?).map (Option.map (fun c => { c with fds := (if i = j then fd else c.fds.1, c.fds.2) })) := by
  unfold set_stdin
  rw [List.getElem?_modify]
  cases hj : l[j]? with
  | none => rfl
  | some oc =>
    cases oc with
    | none => by_cases h : i = j <;> simp [h]
    | some c => by_cases h : i = j <;> simp [h]

theorem set_stdout_get (l : List (Option command)) (i j : Nat) (fd : Int) :
    (set_stdout l i fd)[j]? =
      (l[j]?).map (Option.map (fun c => { c with fds := (c.fds.1, if i = j then fd else c.fds.2) })) := by
  unfold set_stdout
  rw [List.getElem?_modify]
  cases hj : l[j]? with
  | none => rfl
  | some oc =>
    cases oc with
    | none => by_cases h : i = j <;> simp [h]
    | some c => by_cases h : i = j <;> simp [h]

theorem wire_pipes_get :
    ∀ (left i : Nat) (w : World) (l : List (Option command)) (j : Nat), 1 ≤ i →
      ((wire_pipes left i w l).2.1)[j]? =
        (l[j]?).map (Option.map (fun c =>
          { c with fds :=
              (if i ≤ j ∧ j < i + left then ((w.next_fd + 2 * (j - i) : Nat) : Int) else c.fds.1,
               if i ≤ j + 1 ∧ j + 1 < i + left then ((w.next_fd + 2 * (j + 1 - i) + 1 : Nat) : Int)
               else c.fds.2) })) := by
  intro left
  induction left with
  | zero =>
    intro i w l j _
    simp only [wire_pipes]
    have h1 : ¬ (i ≤ j ∧ j < i + 0) := by omega
    have h2 : ¬ (i ≤ j + 1 ∧ j + 1 < i + 0) := by omega
    simp only [h1, h2, if_false]
    cases l[j]? with
    | none => rfl
    | some oc => cases oc <;> rfl
  | succ left ih =>
    intro i w l j hi
    simp only [wire_pipes]
    rw [ih (i + 1) _ _ j (by omega), set_stdin_get, set_stdout_get]
    simp only [World.log]
    cases l[j]? with
    | none => rfl
    | some oc =>
      cases oc with
      | none => rfl
      | some c =>
        simp only [Option.map_some', Option.some.injEq]
        congr 1
        apply Prod.ext
        · simp only
          by_cases ha : i + 1 ≤ j ∧ j < i + 1 + left
          · have hb : i ≤ j ∧ j < i + (left + 1) := by omega
            rw [if_pos ha, if_pos hb]
            congr 1; omega
          · rw [if_neg ha]
            by_cases hij : i = j
            · have hb : i ≤ j ∧ j < i + (left + 1) := by omega
              rw [if_pos hij, if_pos hb]
              subst hij; simp
            · have hb : ¬ (i ≤ j ∧ j < i + (left + 1)) := by omega
              rw [if_neg hij, if_neg hb]
        · simp only
          by_cases ha : i + 1 ≤ j + 1 ∧ j + 1 < i + 1 + left
          · have hb : i ≤ j + 1 ∧ j + 1 < i + (left + 1) := by omega
            rw [if_pos ha, if_pos hb]
            congr 1; omega
          · rw [if_neg ha]
            by_cases hij : i - 1 = j
            · have hb : i ≤ j + 1 ∧ j + 1 < i + (left + 1) := by omega
              rw [if_pos hij, if_pos hb]
              have : j + 1 - i = 0 := by omega
              rw [this]; push_cast; ring
            · have hb : ¬ (i ≤ j + 1 ∧ j + 1 < i + (left + 1)) := by omega
              rw [if_neg hij, if_neg hb]


theorem wire_pipes_pipes :
    ∀ (left i : Nat) (w : World) (l : List (Option command)),
      (wire_pipes left i w l).2.2 = fresh_pipes w.next_fd left ∧
      (wire_pipes left i w l).1 =
        { w with next_fd := w.next_fd + 2 * left,
                 trace := w.trace ++ pipe_events (fresh_pipes w.next_fd left) } := by
  intro left
  induction left with
  | zero => intro i w l; simp [wire_pipes, fresh_pipes, pipe_events]
  | succ left ih =>
    intro i w l
    simp only [wire_pipes, fresh_pipes]
    obtain ⟨h1, h2⟩ := ih (i + 1) ({ w with next_fd := w.next_fd + 2 }.log
      (Event.pipe (w.next_fd : Int) ((w.next_fd : Int) + 1)))
      (set_stdin (set_stdout l (i - 1) ((w.next_fd : Int) + 1)) i (w.next_fd : Int))
    refine ⟨?_, ?_⟩
    · rw [h1]; rfl
    · rw [h2]
      simp only [World.log, pipe_events, List.map_cons, List.append_assoc, List.singleton_append,
        fresh_pipes]
      congr 1
      omega

theorem fresh_pipes_get :
    ∀ (n nf k : Nat), k < n →
      (fresh_pipes nf n)[k]? = some (((nf + 2 * k : Nat) : Int), ((nf + 2 * k + 1 : Nat) : Int)) := by
  intro n
  induction n with
  | zero => intro nf k h; omega
  | succ n ih =>
    intro nf k h
    cases k with
    | zero => simp [fresh_pipes]
    | succ k =>
      simp only [fresh_pipes, List.getElem?_cons_succ]
      rw [ih (nf + 2) k (by omega)]
      congr 3 <;> omega

theorem fresh_pipes_length : ∀ (n nf : Nat), (fresh_pipes nf n).length = n := by
  intro n
  induction n with
  | zero => intro nf; rfl
  | succ n ih => intro nf; simp [fresh_pipes, ih]

theorem close_pipes_eq : ∀ (pipes : List (Int × Int)) (w : World),
    close_pipes w pipes = { w with trace := w.trace ++ close_events pipes } := by
  intro pipes
  induction pipes with
  | nil => intro w; simp [close_pipes, close_events]
  | cons p pipes ih =>
    intro w
    obtain ⟨rd, wr⟩ := p
    simp [close_pipes, close_events, ih, World.log]

theorem wait_all_eq : ∀ (n : Nat) (w : World),
    wait_all n w = { w with trace := w.trace ++ List.replicate n Event.wait } := by
  intro n
  induction n with
  | zero => intro w; simp [wait_all]
  | succ n ih =>
    intro w
    simp only [wait_all, ih, World.log, List.append_assoc]
    congr 2


theorem any_built_in_false (cmds : commands) :
    ∀ (left i : Nat), any_built_in left i cmds = some false →
      ∀ j, i ≤ j → j < i + left →
        ∃ cmd, cmds.cmds[j]? = some (some cmd) ∧ check_built_in cmd = some false := by
  intro left
  induction left with
  | zero => intro i _ j h1 h2; omega
  | succ left ih =>
    intro i h j h1 h2
    simp only [any_built_in, List.get?_eq_getElem?] at h
    cases hc : cmds.cmds[i]? with
    | none => rw [hc] at h; exact absurd h (by simp)
    | some oc =>
      cases oc with
      | none => rw [hc] at h; exact absurd h (by simp)
      | some cmd =>
        rw [hc] at h
        simp only at h
        cases hb : check_built_in cmd with
        | none => rw [hb] at h; exact absurd h (by simp)
        | some b =>
          cases b with
          | true => rw [hb] at h; exact absurd h (by simp)
          | false =>
            rw [hb] at h
            by_cases hji : j = i
            · subst hji; exact ⟨cmd, hc, hb⟩
            · exact ih (i + 1) h j (by omega) (by omega)

theorem any_built_in_false_of (cmds : commands) :
    ∀ (left i : Nat),
      (∀ j, i ≤ j → j < i + left →
        ∃ cmd, cmds.cmds[j]? = some (some cmd) ∧ check_built_in cmd = some false) →
      any_built_in left i cmds = some false := by
  intro left
  induction left with
  | zero => intro i _; rfl
  | succ left ih =>
    intro i h
    obtain ⟨cmd, hc, hb⟩ := h i (Nat.le_refl _) (by omega)
    simp only [any_built_in, List.get?_eq_getElem?, hc, hb]
    exact ih (i + 1) (fun j h1 h2 => h j (by omega) (by omega))

theorem exec_command_spawn (env : Env) (exec : World → commands → Outcome) (w : World)
    (cmds : commands) (cmd : command) (piped : Bool) (hb : check_built_in cmd = some false) :
    ∃ v w1, exec_command env exec w cmds cmd piped = Outcome.ret v w1 ∧ 0 ≤ v ∧
      w1.trace = w.trace ++
        [Event.fork (cmd.name.getD []) cmd.argv cmd.fds piped (fork_value env w.forks)] ∧
      w1.forks = w.forks + 1 ∧ w1.history = w.history ∧ w1.history_len = w.history_len ∧
      w1.cwd = w.cwd ∧ w1.stdout = w.stdout ∧ w1.next_fd = w.next_fd := by
  unfold exec_command
  rw [hb]
  simp only [fork_value]
  cases hf : env.fork_pid w.forks with
  | none => exact ⟨_, _, rfl, by decide, rfl, rfl, rfl, rfl, rfl, rfl, rfl⟩
  | some p => exact ⟨_, _, rfl, by omega, rfl, rfl, rfl, rfl, rfl, rfl, rfl⟩

theorem exec_all_spawn (env : Env) (exec : World → commands → Outcome) (cmds : commands) :
    ∀ (left i : Nat) (w : World) (r : Int), 0 ≤ r →
      (∀ j, i ≤ j → j < i + left →
        ∃ cmd, cmds.cmds[j]? = some (some cmd) ∧ check_built_in cmd = some false) →
      ∃ v w1, exec_all env exec left i w cmds r = Outcome.ret v w1 ∧ 0 ≤ v ∧
        w1.trace = w.trace ++ spawn_events env cmds left i w.forks ∧
        w1.history = w.history ∧ w1.history_len = w.history_len ∧
        w1.cwd = w.cwd ∧ w1.stdout = w.stdout ∧ w1.next_fd = w.next_fd := by
  intro left
  induction left with
  | zero =>
    intro i w r hr _
    exact ⟨r, w, rfl, hr, by simp [spawn_events], rfl, rfl, rfl, rfl, rfl⟩
  | succ left ih =>
    intro i w r _ h
    obtain ⟨cmd, hc, hb⟩ := h i (Nat.le_refl _) (by omega)
    obtain ⟨v, w1, he, hv, ht, hf, hh, hl, hcw, hso, hn⟩ :=
      exec_command_spawn env exec w cmds cmd true hb
    obtain ⟨v2, w2, he2, hv2, ht2, hh2, hl2, hcw2, hso2, hn2⟩ :=
      ih (i + 1) w1 v hv (fun j h1 h2 => h j (by omega) (by omega))
    refine ⟨v2, w2, ?_, hv2, ?_, hh2.trans hh, hl2.trans hl, hcw2.trans hcw, hso2.trans hso,
      hn2.trans hn⟩
    · simp only [exec_all, List.get?_eq_getElem?, hc, he, he2]
    · rw [ht2, ht, hf]
      simp only [spawn_events, List.get?_eq_getElem?, hc, List.append_assoc, List.singleton_append]


theorem wiring_get (w : World) (cmds : commands) (j : Nat) (hn : 2 ≤ cmds.cmd_count) :
    ((wiring w cmds).2.1.cmds)[j]? =
      (cmds.cmds[j]?).map (Option.map (fun c =>
        { c with fds :=
            (if j = 0 then STDIN_FILENO
             else if j < cmds.cmd_count then ((w.next_fd + 2 * (j - 1) : Nat) : Int)
             else c.fds.1,
             if j = cmds.cmd_count - 1 then STDOUT_FILENO
             else if j + 1 < cmds.cmd_count then ((w.next_fd + 2 * j + 1 : Nat) : Int)
             else c.fds.2) })) := by
  simp only [wiring]
  rw [set_stdout_get, wire_pipes_get _ _ _ _ _ (Nat.le_refl 1), set_stdin_get]
  cases cmds.cmds[j]? with
  | none => rfl
  | some oc =>
    cases oc with
    | none => rfl
    | some c =>
      simp only [Option.map_some', Option.some.injEq]
      congr 1
      apply Prod.ext
      · simp only
        by_cases h0 : j = 0
        · subst h0; simp
        · have ha : ¬ (0 = j) := fun h => h0 h.symm
          rw [if_neg h0, if_neg ha]
          by_cases hlt : j < cmds.cmd_count
          · rw [if_pos hlt, if_pos (by omega)]
          · rw [if_neg hlt, if_neg (by omega)]
      · simp only
        by_cases hl : j = cmds.cmd_count - 1
        · rw [if_pos hl, if_pos hl.symm]
        · have ha : ¬ (cmds.cmd_count - 1 = j) := fun h => hl h.symm
          rw [if_neg hl, if_neg ha]
          by_cases hlt : j + 1 < cmds.cmd_count
          · rw [if_pos hlt, if_pos (by omega)]
            congr 1
          · rw [if_neg hlt, if_neg (by omega)]

theorem wiring_world (w : World) (cmds : commands) :
    (wiring w cmds).2.2 = fresh_pipes w.next_fd (cmds.cmd_count - 1) ∧
      (wiring w cmds).1 =
        { w with next_fd := w.next_fd + 2 * (cmds.cmd_count - 1),
                 trace := w.trace ++ pipe_events (fresh_pipes w.next_fd (cmds.cmd_count - 1)) } := by
  simp only [wiring]
  exact wire_pipes_pipes _ _ _ _

theorem check_built_in_fds (c : command) (fds : Int × Int) :
    check_built_in { c with fds := fds } = check_built_in c := rfl

theorem wiring_not_built_in (w : World) (cmds : commands) (hn : 2 ≤ cmds.cmd_count)
    (h : ∀ j, j < cmds.cmd_count →
      ∃ cmd, cmds.cmds[j]? = some (some cmd) ∧ check_built_in cmd = some false) :
    ∀ j, 0 ≤ j → j < 0 + cmds.cmd_count →
      ∃ cmd, (wiring w cmds).2.1.cmds[j]? = some (some cmd) ∧
        check_built_in cmd = some false := by
  intro j _ hj
  obtain ⟨cmd, hc, hb⟩ := h j (by omega)
  rw [wiring_get w cmds j hn, hc]
  exact ⟨_, rfl, hb⟩

/-- The run of `exec_commands` on a pipeline of two or more stages none of
which is a built-in: it returns, with a value that is not negative, and the
events it adds are the pipes, the forks of the wired stages, the closes and
the waits, in this order. -/
theorem exec_commands_pipeline (fuel : Nat) (env : Env) (w : World) (cmds : commands)
    (hn : 2 ≤ cmds.cmd_count)
    (h : ∀ j, j < cmds.cmd_count →
      ∃ cmd, cmds.cmds[j]? = some (some cmd) ∧ check_built_in cmd = some false) :
    ∃ v w1, exec_commands fuel env w cmds = Outcome.ret v w1 ∧ 0 ≤ v ∧
      w1.trace = w.trace ++ (pipe_events (fresh_pipes w.next_fd (cmds.cmd_count - 1)) ++
        spawn_events env (wiring w cmds).2.1 cmds.cmd_count 0 w.forks ++
        close_events (fresh_pipes w.next_fd (cmds.cmd_count - 1)) ++
        List.replicate cmds.cmd_count Event.wait) ∧
      w1.history = w.history ∧ w1.history_len = w.history_len ∧ w1.cwd = w.cwd ∧
      w1.stdout = w.stdout := by
  rw [exec_commands_unfold]
  unfold exec_commands_body
  have h1 : ¬ cmds.cmd_count = 1 := by omega
  have h0 : ¬ cmds.cmd_count = 0 := by omega
  have hany : any_built_in cmds.cmd_count 0 cmds = some false :=
    any_built_in_false_of cmds _ 0 (fun j _ h2 => h j (by omega))
  simp only [h1, h0, if_false, hany]
  obtain ⟨hp, hw⟩ := wiring_world w cmds
  obtain ⟨v, w1, he, hv, ht, hh, hl, hcw, hso, _⟩ :=
    exec_all_spawn env (recall_exec fuel env) (wiring w cmds).2.1 cmds.cmd_count 0
      (wiring w cmds).1 0 (Int.le_refl 0) (wiring_not_built_in w cmds hn h)
  simp only [wiring] at he hp
  rw [he, hp]
  simp only [close_pipes_eq, wait_all_eq]
  refine ⟨_, _, rfl, hv, ?_, ?_, ?_, ?_, ?_⟩
  · simp only [ht, hw, List.append_assoc]
  · simp only [hh, hw]
  · simp only [hl, hw]
  · simp only [hcw, hw]
  · simp only [hso, hw]

/-! ## Pipelines of external commands: the claims -/

theorem external_stage_iff (cmds : commands) (j : Nat) (h : external_stage cmds j = true) :
    ∃ cmd, cmds.cmds[j]? = some (some cmd) ∧ check_built_in cmd = some false := by
  unfold external_stage at h
  rw [List.get?_eq_getElem?] at h
  cases hc : cmds.cmds[j]? with
  | none => rw [hc] at h; exact absurd h (by simp)
  | some oc =>
    cases oc with
    | none => rw [hc] at h; exact absurd h (by simp)
    | some cmd =>
      rw [hc] at h
      exact ⟨cmd, rfl, by simpa using h⟩

/-- C17: for a pipeline of `N >= 2` stages that are all parsed, named and not
built-ins, `exec_commands` runs `exec_command` on the stages only after the
wiring, on the wired commands; at that point the `N - 1` pipes exist, stage 0
reads descriptor 0, stage `N - 1` writes descriptor 1, every stage `i < N - 1`
writes the write end of pipe `i` and every stage `i > 0` reads the read end of
pipe `i - 1`; pipe `k` is the fresh pair `next_fd + 2k`, `next_fd + 2k + 1`. -/
theorem pipeline_descriptors (fuel : Nat) (env : Env) (w : World) (cmds : commands)
    (hn : 2 ≤ cmds.cmd_count)
    (h : ∀ j, j < cmds.cmd_count → external_stage cmds j = true) :
    exec_commands fuel env w cmds =
        (match exec_all env (recall_exec fuel env) cmds.cmd_count 0 (wiring w cmds).1
            (wiring w cmds).2.1 0 with
          | Outcome.ret v w1 =>
            Outcome.ret v (wait_all cmds.cmd_count (close_pipes w1 (wiring w cmds).2.2))
          | o => o) ∧
      (wiring w cmds).1.trace = w.trace ++ pipe_events (wiring w cmds).2.2 ∧
      (wiring w cmds).2.2 = fresh_pipes w.next_fd (cmds.cmd_count - 1) ∧
      (wiring w cmds).2.2.length = cmds.cmd_count - 1 ∧
      ∀ i, i < cmds.cmd_count →
        ∃ c0 c, cmds.cmds[i]? = some (some c0) ∧
          (wiring w cmds).2.1.cmds[i]? = some (some c) ∧
          c.name = c0.name ∧ c.argv = c0.argv ∧ c.argc = c0.argc ∧
          (i = 0 → c.fds.1 = STDIN_FILENO) ∧
          (i = cmds.cmd_count - 1 → c.fds.2 = STDOUT_FILENO) ∧
          (i < cmds.cmd_count - 1 →
            ∃ rd wr, (wiring w cmds).2.2[i]? = some (rd, wr) ∧ c.fds.2 = wr) ∧
          (0 < i → ∃ rd wr, (wiring w cmds).2.2[i - 1]? = some (rd, wr) ∧ c.fds.1 = rd) := by
  obtain ⟨hp, hw⟩ := wiring_world w cmds
  refine ⟨?_, ?_, hp, ?_, ?_⟩
  · rw [exec_commands_unfold]
    unfold exec_commands_body
    have h1 : ¬ cmds.cmd_count = 1 := by omega
    have h0 : ¬ cmds.cmd_count = 0 := by omega
    have hany : any_built_in cmds.cmd_count 0 cmds = some false :=
      any_built_in_false_of cmds _ 0 (fun j _ h2 => external_stage_iff cmds j (h j (by omega)))
    simp only [h1, h0, if_false, hany]
    rfl
  · rw [hw, hp]
  · rw [hp, fresh_pipes_length]
  · intro i hi
    obtain ⟨c0, hc0, _⟩ := external_stage_iff cmds i (h i hi)
    have hg := wiring_get w cmds i hn
    rw [hc0] at hg
    simp only [Option.map_some'] at hg
    refine ⟨c0, _, hc0, hg, rfl, rfl, rfl, ?_, ?_, ?_, ?_⟩
    · intro h0; simp [h0]
    · intro hl; simp [hl]
    · intro hlt
      refine ⟨((w.next_fd + 2 * i : Nat) : Int), ((w.next_fd + 2 * i + 1 : Nat) : Int), ?_, ?_⟩
      · rw [hp]; exact fresh_pipes_get _ _ i hlt
      · have : ¬ i = cmds.cmd_count - 1 := by omega
        simp only [this, if_false]
        rw [if_pos (by omega)]
    · intro hpos
      refine ⟨((w.next_fd + 2 * (i - 1) : Nat) : Int),
        ((w.next_fd + 2 * (i - 1) + 1 : Nat) : Int), ?_, ?_⟩
      · rw [hp]; exact fresh_pipes_get _ _ (i - 1) (by omega)
      · have : ¬ i = 0 := by omega
        simp only [this, if_false, hi, if_true]

/-- C17 at the pipeline parsed from `/bin/ls | /bin/wc | /bin/cat` in the
start-up state: the pipes are (3, 4) and (5, 6) and the three stages get the
descriptors (0, 4), (3, 6) and (5, 1). -/
theorem pipeline_descriptors_witness :
    2 ≤ (parse_commands_with_pipes "/bin/ls | /bin/wc | /bin/cat".toList).cmd_count ∧
      (∀ j, j < (parse_commands_with_pipes "/bin/ls | /bin/wc | /bin/cat".toList).cmd_count →
        external_stage (parse_commands_with_pipes "/bin/ls | /bin/wc | /bin/cat".toList) j =
          true) ∧
      (wiring World.init
          (parse_commands_with_pipes "/bin/ls | /bin/wc | /bin/cat".toList)).2.2 =
        fresh_pipes World.init.next_fd
          ((parse_commands_with_pipes "/bin/ls | /bin/wc | /bin/cat".toList).cmd_count - 1) ∧
      fresh_pipes 3 2 = [(3, 4), (5, 6)] ∧
      ((wiring World.init
          (parse_commands_with_pipes "/bin/ls | /bin/wc | /bin/cat".toList)).2.1.cmds.map
            (Option.map command.fds)) = [some (0, 4), some (3, 6), some (5, 1)] :=
  ⟨by decide, by decide,
    (pipeline_descriptors 0 env_ok World.init
      (parse_commands_with_pipes "/bin/ls | /bin/wc | /bin/cat".toList)
      (by decide) (by decide)).2.2.1,
    by decide, by decide⟩

theorem print_history_value : ∀ (left i : Nat) (w : World),
    (print_history left i w).value ≠ some (-1) := by
  intro left
  induction left with
  | zero => intro i w; simp [print_history, Outcome.value]
  | succ left ih =>
    intro i w
    simp only [print_history]
    cases history_at w (i : Int) with
    | none => simp [Outcome.value]
    | some line => exact ih _ _

theorem handle_history_value (exec : World → commands → Outcome) (w : World)
    (cmds : commands) (cmd : command) :
    (handle_history exec w cmds cmd).value ≠ some (-1) := by
  unfold handle_history
  simp only []
  repeat' split
  all_goals first
    | exact print_history_value _ _ _
    | simp [Outcome.value]

theorem handle_built_in_value (env : Env) (exec : World → commands → Outcome) (w : World)
    (cmds : commands) (cmd : command) :
    (handle_built_in env exec w cmds cmd).value = some (-1) ↔
      cmd.name = some "exit".toList := by
  unfold handle_built_in
  cases hn : cmd.name with
  | none => simp [Outcome.value]
  | some name =>
    simp only [Option.some.injEq]
    by_cases he : name = "exit".toList
    · subst he; simp [Outcome.value]
    · have he2 : (name == "exit".toList) = false := by simpa using he
      simp only [he2, Bool.false_eq_true, if_false, he, iff_false]
      split
      · split <;> simp [Outcome.value]
      · split
        · exact handle_history_value _ _ _ _
        · simp [Outcome.value]

theorem exec_command_value (env : Env) (exec : World → commands → Outcome) (w : World)
    (cmds : commands) (cmd : command) (piped : Bool) :
    (exec_command env exec w cmds cmd piped).value = some (-1) ↔
      cmd.name = some "exit".toList := by
  cases hb : check_built_in cmd with
  | none =>
    have hn : cmd.name = none := by
      unfold check_built_in at hb
      cases h : cmd.name with
      | none => rfl
      | some n => rw [h] at hb; exact absurd hb (by simp)
    simp [exec_command, hb, hn, Outcome.value]
  | some b =>
    cases b with
    | true =>
      simp only [exec_command, hb]
      exact handle_built_in_value env exec w cmds cmd
    | false =>
      obtain ⟨v, w1, he, hv, _⟩ := exec_command_spawn env exec w cmds cmd piped hb
      rw [he]
      have hne : cmd.name ≠ some "exit".toList := by
        intro h
        unfold check_built_in at hb
        rw [h] at hb
        exact absurd hb (by decide)
      simp only [Outcome.value, Option.some.injEq, hne, iff_false]
      omega

/-- C12: `exec_commands` returns the terminate value -1 exactly when the
pipeline has one stage and that stage is a parsed command named `exit`,
whatever its arguments; on every other pipeline it does not return -1. -/
theorem exit_value_iff_single_exit (fuel : Nat) (env : Env) (w : World) (cmds : commands) :
    ((exec_commands fuel env w cmds).value = some (-1) ↔
        cmds.cmd_count = 1 ∧ stage_name cmds 0 = some "exit".toList) ∧
      (cmds.cmd_count = 1 ∧ stage_name cmds 0 = some "exit".toList →
        exec_commands fuel env w cmds = Outcome.ret (-1) (w.log Event.wait)) := by
  have hsingle : cmds.cmd_count = 1 → stage_name cmds 0 = some "exit".toList →
      exec_commands fuel env w cmds = Outcome.ret (-1) (w.log Event.wait) := by
    intro h1 hs
    obtain ⟨cmd, hc, hcn⟩ := stage_name_some cmds 0 _ hs
    rw [exec_commands_unfold]
    unfold exec_commands_body
    simp only [h1, if_true, hc, exec_command, check_built_in, hcn, handle_built_in]
    rfl
  refine ⟨⟨?_, fun h => by rw [hsingle h.1 h.2]; rfl⟩, fun h => hsingle h.1 h.2⟩
  intro hv
  by_cases h1 : cmds.cmd_count = 1
  · refine ⟨h1, ?_⟩
    rw [exec_commands_unfold] at hv
    unfold exec_commands_body at hv
    simp only [h1, if_true] at hv
    unfold stage_name
    cases hc : cmds.cmds.get? 0 with
    | none => rw [hc] at hv; simp [Outcome.value] at hv
    | some oc =>
      cases oc with
      | none => rw [hc] at hv; simp [Outcome.value] at hv
      | some cmd0 =>
        rw [hc] at hv
        simp only at hv
        split at hv
        · next v w1 heq =>
          simp only [Outcome.value, Option.some.injEq] at hv
          subst hv
          have k := congrArg Outcome.value heq
          have k2 := (exec_command_value _ _ _ _ _ _).mp k
          exact k2
        · have k2 := (exec_command_value _ _ _ _ _ _).mp hv
          exact k2
  · exfalso
    by_cases h0 : cmds.cmd_count = 0
    · rw [exec_commands_unfold] at hv
      unfold exec_commands_body at hv
      simp [h1, h0, Outcome.value] at hv
    · cases hany : any_built_in cmds.cmd_count 0 cmds with
      | none =>
        rw [exec_commands_unfold] at hv
        unfold exec_commands_body at hv
        simp [h1, h0, hany, Outcome.value] at hv
      | some b =>
        cases b with
        | true =>
          rw [exec_commands_unfold] at hv
          unfold exec_commands_body at hv
          simp [h1, h0, hany, Outcome.value] at hv
        | false =>
          obtain ⟨v, w1, he, hv0, _⟩ := exec_commands_pipeline fuel env w cmds (by omega)
            (fun j hj => any_built_in_false cmds _ 0 hany j (Nat.zero_le _) (by omega))
          rw [he] at hv
          simp only [Outcome.value, Option.some.injEq] at hv
          omega

/-- C12 at the pipelines parsed from `exit 3` and from `/bin/ls`: the first
returns -1, the second the pid 42. -/
theorem exit_value_iff_single_exit_witness :
    ((parse_commands_with_pipes "exit 3".toList).cmd_count = 1 ∧
        stage_name (parse_commands_with_pipes "exit 3".toList) 0 = some "exit".toList) ∧
      exec_commands 0 env_ok World.init (parse_commands_with_pipes "exit 3".toList) =
        Outcome.ret (-1) (World.init.log Event.wait) ∧
      (exec_commands 0 env_ok World.init (parse_commands_with_pipes "/bin/ls".toList)).value =
        some 42 :=
  ⟨by decide,
    (exit_value_iff_single_exit 0 env_ok World.init
      (parse_commands_with_pipes "exit 3".toList)).2 (by decide),
    by decide⟩

/-! ## The tokenizer against its specification -/

theorem spec_fields_nil (d : Char) : spec_fields d [] = [] := by
  simp [spec_fields, List.splitOn]

theorem spec_fields_delim (d : Char) (cs : CStr) : spec_fields d (d :: cs) = spec_fields d cs := by
  simp [spec_fields, List.splitOn]

theorem splitOnP_head (p : Char → Bool) : ∀ (xs : CStr),
    xs.splitOnP p = xs.takeWhile (fun c => !p c) ::
      (match xs.dropWhile (fun c => !p c) with
        | [] => []
        | _ :: r => r.splitOnP p) := by
  intro xs
  induction xs with
  | nil => rfl
  | cons x xs ih =>
    rw [List.splitOnP_cons]
    by_cases hp : p x = true
    · simp [hp, List.takeWhile, List.dropWhile]
    · have hp2 : p x = false := by simpa using hp
      rw [if_neg hp, ih]
      simp [hp2, List.takeWhile, List.dropWhile]

theorem spec_fields_other (d c : Char) (cs : CStr) (h : c ≠ d) :
    spec_fields d (c :: cs) =
      (c :: cs.takeWhile (fun x => x != d)) ::
        spec_fields d ((cs.dropWhile (fun x => x != d)).drop 1) := by
  have hcd : (c == d) = false := by simpa using h
  have hf : (fun x : Char => !(x == d)) = (fun x => x != d) := rfl
  unfold spec_fields List.splitOn
  rw [splitOnP_head, hf]
  simp only [List.takeWhile, List.dropWhile, bne, hcd, Bool.not_false]
  rw [List.filter_cons]
  simp only [bne, List.cons_ne_nil, beq_iff_eq, Bool.not_eq_true', Bool.not_false, if_true,
    reduceCtorEq, List.cons.injEq, true_and]
  cases hdw : List.dropWhile (fun x => !(x == d)) cs with
  | nil => simp
  | cons y r => simp

theorem strtok_spec (d : Char) : ∀ (s : CStr),
    match strtok d s with
    | none => spec_fields d s = []
    | some (token, rest) => spec_fields d s = token :: spec_fields d rest := by
  intro s
  induction s with
  | nil => simp [strtok, spec_fields_nil]
  | cons c cs ih =>
    by_cases h : c = d
    · subst h
      have : strtok c (c :: cs) = strtok c cs := by
        simp [strtok, List.dropWhile]
      rw [this, spec_fields_delim]
      exact ih
    · have hcd : (c == d) = false := by simpa using h
      have : strtok d (c :: cs) =
          some (c :: cs.takeWhile (fun x => x != d), (cs.dropWhile (fun x => x != d)).drop 1) := by
        simp [strtok, List.dropWhile, List.takeWhile, hcd, bne]
      rw [this]
      exact spec_fields_other d c cs h

theorem parse_command_loop_spec : ∀ (room : Nat) (s : CStr),
    parse_command_loop room (strtok ' ' s) = (spec_fields ' ' s).take room := by
  intro room
  induction room with
  | zero => intro s; simp [parse_command_loop]
  | succ room ih =>
    intro s
    have h := strtok_spec ' ' s
    cases hs : strtok ' ' s with
    | none => rw [hs] at h; simp only at h; simp [parse_command_loop, h]
    | some tr =>
      obtain ⟨token, rest⟩ := tr
      rw [hs] at h
      simp only at h
      simp [parse_command_loop, h, ih rest]

theorem parse_command_spec (stage : CStr) : parse_command stage = spec_command stage := by
  simp only [parse_command, spec_command, parse_command_loop_spec]

theorem parse_pipes_loop_spec : ∀ (room : Nat) (s : CStr),
    parse_pipes_loop room (strtok '|' s) = ((spec_fields '|' s).take room).map spec_command := by
  intro room
  induction room with
  | zero => intro s; simp [parse_pipes_loop]
  | succ room ih =>
    intro s
    have h := strtok_spec '|' s
    cases hs : strtok '|' s with
    | none => rw [hs] at h; simp only at h; simp [parse_pipes_loop, h]
    | some tr =>
      obtain ⟨token, rest⟩ := tr
      rw [hs] at h
      simp only at h
      simp [parse_pipes_loop, h, ih rest, parse_command_spec]

theorem splitOn_length (d : Char) : ∀ (s : CStr), (s.splitOn d).length = s.count d + 1 := by
  intro s
  induction s with
  | nil => rfl
  | cons c cs ih =>
    unfold List.splitOn at ih ⊢
    rw [List.splitOnP_cons]
    by_cases h : c = d
    · subst h; simp [ih]
    · have hcd : (c == d) = false := by simpa using h
      simp [hcd, ih, List.count_cons, h]

theorem spec_fields_length_le (d : Char) (s : CStr) :
    (spec_fields d s).length ≤ s.count d + 1 := by
  rw [← splitOn_length]
  exact List.length_filter_le _ _

/-- C14: the pipeline that `parse_commands_with_pipes` builds holds, for the
`k`-th maximal non-empty `|`-free substring of the line, from left to right, a
command whose arguments are the first `min n ARG_MAX_COUNT` of the `n` maximal
non-empty space-free substrings of that substring, in order, with `argc` equal
to that number and the name equal to argument 0; every such substring gets its
command, and the later ones of more than `ARG_MAX_COUNT` (1024) arguments are
dropped. -/
theorem parse_commands_with_pipes_spec (line : CStr) :
    parse_commands_with_pipes line =
        { cmd_count := line.count '|' + 1,
          cmds := ((spec_fields '|' line).map spec_command).map some ++
            List.replicate (line.count '|' + 1 - (spec_fields '|' line).length) none } ∧
      (spec_fields '|' line).length ≤ line.count '|' + 1 ∧
      (∀ stage : CStr,
        (spec_command stage).argv = (spec_fields ' ' stage).take ARG_MAX_COUNT ∧
        (spec_command stage).argc = min (spec_fields ' ' stage).length ARG_MAX_COUNT ∧
        (spec_command stage).name = (spec_command stage).argv.head?) ∧
      ARG_MAX_COUNT = 1024 ∧
      spec_fields '|' "ls -l||wc  -c | ".toList =
        ["ls -l".toList, "wc  -c ".toList, " ".toList] ∧
      spec_fields ' ' "wc  -c ".toList = ["wc".toList, "-c".toList] := by
  have hle := spec_fields_length_le '|' line
  refine ⟨?_, hle, ?_, rfl, by decide, by decide⟩
  · unfold parse_commands_with_pipes
    simp only [parse_pipes_loop_spec]
    rw [List.take_of_length_le hle]
    simp
  · intro stage
    refine ⟨rfl, ?_, rfl⟩
    simp only [spec_command, List.length_take]
    omega

theorem splitOnP_mem (p : Char → Bool) : ∀ (xs t : CStr), t ∈ xs.splitOnP p →
    ∀ c ∈ t, p c = false ∧ c ∈ xs := by
  intro xs
  induction xs with
  | nil =>
    intro t ht c hc
    simp only [List.splitOnP_nil, List.mem_singleton] at ht
    subst ht
    exact absurd hc (List.not_mem_nil _)
  | cons x xs ih =>
    intro t ht c hc
    rw [List.splitOnP_cons] at ht
    by_cases hp : p x = true
    · rw [if_pos hp] at ht
      rcases List.mem_cons.mp ht with h | h
      · subst h; exact absurd hc (List.not_mem_nil _)
      · obtain ⟨h1, h2⟩ := ih t h c hc
        exact ⟨h1, List.mem_cons_of_mem _ h2⟩
    · rw [if_neg hp] at ht
      cases hs : List.splitOnP p xs with
      | nil => rw [hs] at ht; simp at ht
      | cons hd tl =>
        rw [hs] at ht
        simp only [List.modifyHead_cons, List.mem_cons] at ht
        rcases ht with h | h
        · subst h
          rcases List.mem_cons.mp hc with h3 | h3
          · subst h3; exact ⟨by simpa using hp, List.mem_cons_self _ _⟩
          · obtain ⟨h1, h2⟩ := ih hd (by rw [hs]; exact List.mem_cons_self _ _) c h3
            exact ⟨h1, List.mem_cons_of_mem _ h2⟩
        · obtain ⟨h1, h2⟩ := ih t (by rw [hs]; exact List.mem_cons_of_mem _ h) c hc
          exact ⟨h1, List.mem_cons_of_mem _ h2⟩

theorem spec_fields_mem (d : Char) (s t : CStr) (h : t ∈ spec_fields d s) :
    t ≠ [] ∧ d ∉ t ∧ ∀ c ∈ t, c ∈ s := by
  unfold spec_fields List.splitOn at h
  obtain ⟨h1, h2⟩ := List.mem_filter.mp h
  refine ⟨by simpa using h2, ?_, fun c hc => (splitOnP_mem _ s t h1 c hc).2⟩
  intro hd
  have := (splitOnP_mem _ s t h1 d hd).1
  simp at this

theorem parse_commands_with_pipes_eq (line : CStr) :
    parse_commands_with_pipes line =
      { cmd_count := line.count '|' + 1,
        cmds := ((spec_fields '|' line).map spec_command).map some ++
          List.replicate (line.count '|' + 1 - (spec_fields '|' line).length) none } := by
  unfold parse_commands_with_pipes
  simp only [parse_pipes_loop_spec]
  rw [List.take_of_length_le (spec_fields_length_le '|' line)]
  simp

/-- Every argument that the tokenizer produces is non-empty and contains
neither the byte `|` nor the space byte. -/
theorem parsed_arguments_clean (line : CStr) (cmd : command) (arg : CStr)
    (hc : some cmd ∈ (parse_commands_with_pipes line).cmds) (ha : arg ∈ cmd.argv) :
    arg ≠ [] ∧ ' ' ∉ arg ∧ '|' ∉ arg := by
  rw [parse_commands_with_pipes_eq] at hc
  simp only [List.map_map, List.mem_append, List.mem_map, Function.comp_apply,
    Option.some.injEq, List.mem_replicate, reduceCtorEq, and_false, or_false] at hc
  obtain ⟨stage, hs, he⟩ := hc
  subst he
  have hmem : arg ∈ spec_fields ' ' stage := List.mem_of_mem_take ha
  obtain ⟨h1, h2, h3⟩ := spec_fields_mem ' ' stage arg hmem
  obtain ⟨_, h5, _⟩ := spec_fields_mem '|' line stage hs
  exact ⟨h1, h2, fun hp => h5 (h3 _ hp)⟩

end Shell
